import Mathlib

/-!
Verification development for the Stockify image proxy worker
(`src/worker.js`).  The JavaScript source is shallowly embedded: each
helper function of the worker becomes a Lean definition over `String` /
`List Char`, the network (the DuckDuckGo results page and the candidate
page fetches) is an explicit oracle, and the request dispatcher becomes a
pure function from the oracle and the parsed query parameters to the HTTP
response together with an observation trace (which strategies ran, which
URLs were fetched, which searches were issued).

Modelling conventions, fixed once here:

* JavaScript strings are `String`; character work happens on `List Char`.
* Unicode-aware character classes are modelled on the ASCII range:
  `\p{L}` by `Char.isAlpha`, `\p{N}` and `\d` by `Char.isDigit`, `\s` by
  `Char.isWhitespace`, `\w` (used by `\b`) by ASCII alphanumerics plus
  underscore, and the case-insensitive `i` flag by `Char.toLower`.  All
  concrete inputs analysed in the theorems are ASCII, where these agree
  with the JavaScript semantics.
* Exceptions are `Option`: a throwing fetch is `none`; `catch {}` is the
  `none` branch of a `match`.
* Floating point: the similarity score `inter / max(1, sqrt(|A|*|B|))`
  is carried operationally as the pair `(inter, |A|*|B|)` of naturals;
  its numeric value is the real number `scoreVal` of that pair, and the
  comparison `score >= 0.6` is compiled to the equivalent decidable test
  `simAccept` (the equivalence with `3/5 ≤ scoreVal` is proved below as
  `simAccept_iff`).  Real (exact) arithmetic stands in for IEEE doubles.
* Recursive scanners that do not recurse structurally take a fuel
  argument equal to the input length; the natural recursion equations are
  recovered as lemmas, so the fuel never appears in proofs.
-/

namespace Stockify

/-! ### Basic character and list utilities -/

/-- The apostrophe character, written via its code point. -/
def apos : Char := Char.ofNat 39

/-- Quote characters, the regex class consisting of a double or single quote. -/
def isQuote (c : Char) : Bool := c == '"' || c == apos

/-- ASCII lower-casing, the model of the regex `i` flag and of
`String.prototype.toLowerCase` for the ASCII range. -/
def lc (c : Char) : Char := c.toLower

def lcList (l : List Char) : List Char := l.map lc

/-- `Starts m l`: `m` is an initial segment of `l`. -/
def Starts (m l : List Char) : Prop := ∃ t, l = m ++ t

/-- `Within m l`: `m` occurs contiguously inside `l`
(JavaScript `String.prototype.includes` at the list level). -/
def Within (m l : List Char) : Prop := ∃ s t, l = s ++ m ++ t

/-- Decidable check that `pat` is an initial segment of `l`. -/
def startsList : List Char → List Char → Bool
  | [], _ => true
  | _ :: _, [] => false
  | p :: ps, c :: cs => p == c && startsList ps cs

/-- Decidable contiguous-occurrence check (`String.prototype.includes`). -/
def withinList (pat : List Char) : List Char → Bool
  | [] => startsList pat []
  | l@(_ :: cs) => startsList pat l || withinList pat cs

/-- `html.includes(pat)` on strings. -/
def strContains (hay pat : String) : Bool := withinList pat.data hay.data

/-- Case-insensitive containment, the semantics of testing for an escaped
literal under the regex `i` flag. -/
def containsCI (hay pat : List Char) : Bool := withinList (lcList pat) (lcList hay)

/-! ### Percent decoding and encoding (platform URL primitives)

The worker relies on `encodeURIComponent`, `decodeURIComponent` and
`URLSearchParams` decoding.  They are modelled per byte for code points
below 256 (JavaScript additionally validates/produces UTF-8 multi-byte
sequences, which no analysed input exercises). -/

def hexVal (c : Char) : Option ℕ :=
  if c.isDigit then some (c.toNat - 48)
  else if 'A' ≤ c && c ≤ 'F' then some (c.toNat - 55)
  else if 'a' ≤ c && c ≤ 'f' then some (c.toNat - 87)
  else none

def hexDigit (n : ℕ) : Char :=
  if n < 10 then Char.ofNat (48 + n) else Char.ofNat (55 + n)

/-- `decodeURIComponent`: percent sequences must be well formed, otherwise
the call throws (`none`); `+` is not special. -/
def decodeURIL : List Char → Option (List Char)
  | [] => some []
  | '%' :: h₁ :: h₂ :: rest =>
    match hexVal h₁, hexVal h₂ with
    | some a, some b => (decodeURIL rest).map (fun r => Char.ofNat (16 * a + b) :: r)
    | _, _ => none
  | '%' :: _ => none
  | c :: rest => (decodeURIL rest).map (fun r => c :: r)

def decodeURIComponentS (s : String) : Option String :=
  (decodeURIL s.data).map List.asString

/-- `URLSearchParams` value decoding: `+` becomes a space; malformed
percent sequences are kept literally (this decoder never throws). -/
def lenientDecode : List Char → List Char
  | [] => []
  | '+' :: rest => ' ' :: lenientDecode rest
  | '%' :: h₁ :: h₂ :: rest =>
    match hexVal h₁, hexVal h₂ with
    | some a, some b => Char.ofNat (16 * a + b) :: lenientDecode rest
    | _, _ => '%' :: lenientDecode (h₁ :: h₂ :: rest)
  | c :: rest => c :: lenientDecode rest

def uriUnreserved (c : Char) : Bool :=
  c.isAlpha || c.isDigit ||
    (c == '-' || c == '_' || c == '.' || c == '!' || c == '~' || c == '*' ||
     c == apos || c == '(' || c == ')')

/-- `encodeURIComponent`, per byte for code points below 256. -/
def encodeURIL : List Char → List Char
  | [] => []
  | c :: rest =>
    (if uriUnreserved c then [c]
     else ['%', hexDigit (c.toNat % 256 / 16), hexDigit (c.toNat % 16)]) ++ encodeURIL rest

def encodeURIComponentS (s : String) : String := (encodeURIL s.data).asString

/-! ### The WHATWG `URL` object (platform primitive)

`new URL(s)` is modelled for `scheme://[userinfo@]host[:port][/path][?query]`
shapes: scheme and host are lower-cased, the pathname defaults to `/`,
and parse failure (which throws in JavaScript) is `none`.  Path-segment
normalisation and default-port elision are not modelled; no analysed URL
uses them. -/

structure UrlParts where
  scheme : String
  host : String
  port : String
  pathname : String
  query : String
deriving DecidableEq, Repr

def isSchemeChar (c : Char) : Bool := c.isAlpha || c.isDigit || c == '+' || c == '-' || c == '.'

/-- Split `l` at the last occurrence of `sep`; `none` if `sep` is absent. -/
def splitLast (sep : Char) (l : List Char) : Option (List Char × List Char) :=
  match l.reverse.takeWhile (fun c => c != sep), l.reverse.dropWhile (fun c => c != sep) with
  | after, _ :: before => some (before.reverse, after.reverse)
  | _, [] => none

def parseAuthority (auth : List Char) : Option (String × String) :=
  let hostport := match splitLast '@' auth with
    | some (_, hp) => hp
    | none => auth
  match splitLast ':' hostport with
  | some (h, p) =>
    if h = [] then none
    else if p.all Char.isDigit then some ((lcList h).asString, p.asString) else none
  | none => if hostport = [] then none else some ((lcList hostport).asString, "")

def parseURL (s : String) : Option UrlParts :=
  let l := s.data
  let scheme := l.takeWhile (fun c => c != ':')
  let rest := l.dropWhile (fun c => c != ':')
  match scheme, rest with
  | [], _ => none
  | _, [] => none
  | sc :: stail, _ :: afterColon =>
    if ¬ sc.isAlpha then none
    else if ¬ stail.all isSchemeChar then none
    else
      let schemeS := (lcList (sc :: stail)).asString
      match afterColon with
      | '/' :: '/' :: afterSlashes =>
        let auth := afterSlashes.takeWhile (fun c => c != '/' && c != '?' && c != '#')
        let tail := afterSlashes.dropWhile (fun c => c != '/' && c != '?' && c != '#')
        match parseAuthority auth with
        | none => none
        | some (host, port) =>
          let path := tail.takeWhile (fun c => c != '?' && c != '#')
          let afterPath := tail.dropWhile (fun c => c != '?' && c != '#')
          let query := match afterPath with
            | '?' :: q => (q.takeWhile (fun c => c != '#')).asString
            | _ => ""
          some ⟨schemeS, host, port, (if path = [] then "/" else path.asString), query⟩
      | _ =>
        -- opaque-path URLs such as `mailto:x`: hostname is empty
        some ⟨schemeS, "", "", afterColon.asString, ""⟩

def urlOrigin (p : UrlParts) : String :=
  p.scheme ++ "://" ++ p.host ++ (if p.port = "" then "" else ":" ++ p.port)

/-- `new URL(u).hostname.includes(sub)` with a thrown parse error caught
as `false` — the shape of the candidate filter in `ddgLinks`. -/
def hostContains (u : String) (sub : String) : Bool :=
  match parseURL u with
  | some p => strContains p.host sub
  | none => false

/-! `URLSearchParams.get`: split the query on `&`, each pair at its first
`=`, decode leniently, return the first value whose key matches. -/

def splitGo (sep : Char) : ℕ → List Char → List (List Char)
  | 0, l => [l.takeWhile (fun c => c != sep)]
  | n + 1, l =>
    match l.takeWhile (fun c => c != sep), l.dropWhile (fun c => c != sep) with
    | seg, [] => [seg]
    | seg, _ :: rest => seg :: splitGo sep n rest

def splitOnChar (sep : Char) (l : List Char) : List (List Char) :=
  splitGo sep l.length l

def queryGet (query : String) (key : String) : Option String :=
  let pairs := (splitOnChar '&' query.data).map (fun pr =>
    ((lenientDecode (pr.takeWhile (fun c => c != '='))).asString,
     (lenientDecode ((pr.dropWhile (fun c => c != '=')).drop 1)).asString))
  (pairs.find? (fun pr => pr.1 == key)).map Prod.snd

/-! ### `cleanName` — the text normalizer

Source:
```
return String(n)
  .replace(/\bGD\d{3,}\b/gi, " ")
  .replace(/\b\d{6,}\b/g, " ")
  .replace(/\([^)]*\)/g, " ")
  .replace(/[^\p{L}\p{N}\s]/gu, " ")
  .replace(/\s+/g, " ")
  .trim();
```

For the two word-boundary patterns, `\w` (hence `\b`) is ASCII
alphanumerics plus underscore and `\d` is ASCII digits (neither regex has
the `u` flag).  Since `G`, `D` and digits are word characters, a match of
`\bGD\d{3,}\b` (resp. `\b\d{6,}\b`) is exactly a maximal word-character
run of the form `GD` + 3-or-more digits (case-insensitively) (resp. an
all-digit run of length ≥ 6): the leading `\b` forces the match to start
a run and the trailing `\b` forces it to end one, and no positions inside
a run are boundaries.  Both stages are therefore embedded as "replace
each maximal word run satisfying the pattern by a single space". -/

def wordChar (c : Char) : Bool := c.isAlphanum || c == '_'

/-- A maximal word run matching `GD\d{3,}` case-insensitively. -/
def gdRun : List Char → Bool
  | g :: d :: ds => (lc g == 'g') && (lc d == 'd') && decide (3 ≤ ds.length) && ds.all Char.isDigit
  | _ => false

/-- A maximal word run matching `\d{6,}`. -/
def longDigitRun (r : List Char) : Bool := decide (6 ≤ r.length) && r.all Char.isDigit

def replGo (p : List Char → Bool) : ℕ → List Char → List Char
  | 0, _ => []
  | _ + 1, [] => []
  | n + 1, c :: cs =>
    if wordChar c then
      (if p ((c :: cs).takeWhile wordChar) then [' '] else (c :: cs).takeWhile wordChar) ++
        replGo p n (cs.dropWhile wordChar)
    else c :: replGo p n cs

/-- Replace each maximal word-character run satisfying `p` by a space. -/
def replRuns (p : List Char → Bool) (l : List Char) : List Char := replGo p l.length l

def wordRunsGo : ℕ → List Char → List (List Char)
  | 0, _ => []
  | _ + 1, [] => []
  | n + 1, c :: cs =>
    if wordChar c then (c :: cs).takeWhile wordChar :: wordRunsGo n (cs.dropWhile wordChar)
    else wordRunsGo n cs

/-- The maximal word-character runs of a string, in order. -/
def wordRuns (l : List Char) : List (List Char) := wordRunsGo l.length l

/-- Position after the first `)`, if any — the parenthetical pattern
`\([^)]*\)` matches up to the first closing parenthesis. -/
def splitCloseParen : List Char → Option (List Char)
  | [] => none
  | c :: rest => if c = ')' then some rest else splitCloseParen rest

def parenGo : ℕ → List Char → List Char
  | 0, _ => []
  | _ + 1, [] => []
  | n + 1, c :: cs =>
    if c == '(' then
      match splitCloseParen cs with
      | some rest => ' ' :: parenGo n rest
      | none => c :: parenGo n cs
    else c :: parenGo n cs

/-- `.replace(/\([^)]*\)/g, " ")`. -/
def stripParens (l : List Char) : List Char := parenGo l.length l

/-- `.replace(/[^\p{L}\p{N}\s]/gu, " ")` (ASCII model of the classes). -/
def punctPass (c : Char) : Char :=
  if c.isAlpha || c.isDigit || c.isWhitespace then c else ' '

def punctStage (l : List Char) : List Char := l.map punctPass

def collapseGo : ℕ → List Char → List Char
  | 0, _ => []
  | _ + 1, [] => []
  | n + 1, c :: cs =>
    if c.isWhitespace then ' ' :: collapseGo n (cs.dropWhile Char.isWhitespace)
    else c :: collapseGo n cs

/-- `.replace(/\s+/g, " ")`. -/
def collapseWS (l : List Char) : List Char := collapseGo l.length l

/-- `.trim()`. -/
def trimWS (l : List Char) : List Char :=
  ((l.dropWhile Char.isWhitespace).reverse.dropWhile Char.isWhitespace).reverse

def cleanNameL (l : List Char) : List Char :=
  trimWS (collapseWS (punctStage (stripParens (replRuns longDigitRun (replRuns gdRun l)))))

/-- `cleanName` from the source. -/
def cleanName (n : String) : String := (cleanNameL n.data).asString

def tokGo : ℕ → List Char → List (List Char)
  | 0, _ => []
  | _ + 1, [] => []
  | n + 1, c :: cs =>
    if c.isWhitespace then tokGo n cs
    else (c :: cs).takeWhile (fun x => !x.isWhitespace) ::
      tokGo n (cs.dropWhile (fun x => !x.isWhitespace))

/-- Maximal non-whitespace runs: `split(/\s+/)` followed by
`filter(Boolean)` yields exactly these. -/
def splitNonWS (l : List Char) : List (List Char) := tokGo l.length l

/-- `tokens` from the source:
`cleanName(s).toLowerCase().split(/\s+/).filter(Boolean)`. -/
def tokens (s : String) : List String :=
  (splitNonWS (lcList (cleanNameL s.data))).map List.asString

/-! ### `similarity` — the similarity scorer

Source:
```
const A = new Set(a), B = new Set(b);
const inter = [...A].filter(x => B.has(x)).length;
const den = Math.max(1, Math.sqrt(A.size * B.size));
return inter / den; // 0..1
```

The score is carried as the pair `(|A ∩ B|, |A| * |B|)`; its numeric
value is `scoreVal`. -/

def simScore (a b : List String) : ℕ × ℕ :=
  ((a.toFinset ∩ b.toFinset).card, a.toFinset.card * b.toFinset.card)

/-- The numeric value `inter / Math.max(1, Math.sqrt(|A| * |B|))` of a
score pair. -/
noncomputable def scoreVal (p : ℕ × ℕ) : ℝ := (p.1 : ℝ) / max 1 (Real.sqrt p.2)

noncomputable def similarity (a b : List String) : ℝ := scoreVal (simScore a b)

/-- The decidable compilation of the branch `score >= 0.6`: equivalent to
`3/5 ≤ similarity a b` (proved as `simAccept_iff` below). -/
def simAccept (a b : List String) : Bool :=
  decide (0 < (simScore a b).1) && decide (9 * (simScore a b).2 ≤ 25 * (simScore a b).1 ^ 2)

/-! ### Acceptance predicates of the token strategies -/

/-- `containsProductNumber` from the source:
```
const re = new RegExp(
  String.raw`(Num(?:é|e)ro\s+du\s+produit\s*:?\s*)?${escapeReg(num)}`, "i");
return re.test(html);
```
`escapeReg` escapes every regex metacharacter, so `${escapeReg(num)}` is
a literal; the label group is optional, so the regex has a match in
`html` exactly when the literal `num` matches somewhere under the `i`
flag (a match of label-then-`num` contains a match of `num` alone).
Hence: case-insensitive substring containment. -/
def containsProductNumber (html num : String) : Bool := containsCI html.data num.data

/-- The EAN format gate `/^\d{12,14}$/.test(ean)`. -/
def validEan (e : String) : Bool :=
  decide (12 ≤ e.data.length) && decide (e.data.length ≤ 14) && e.data.all Char.isDigit

/-- `hasSixB l` holds when `l` contains six consecutive ASCII digits. -/
def hasSixB : List Char → Bool
  | [] => false
  | l@(_ :: cs) => (decide (6 ≤ l.length) && (l.take 6).all Char.isDigit) || hasSixB cs

/-- A run of six consecutive digits occurs in `l` (propositional form of
`hasSixB`; the equivalence is `hasSixB_iff`). -/
def SixRun (l : List Char) : Prop :=
  ∃ m, m.length = 6 ∧ m.all Char.isDigit = true ∧ Within m l

/-- Every maximal word-character run of `l` that contains six consecutive
digits is entirely digits — equivalently, every digit run of length ≥ 6
is delimited by word boundaries rather than touching a letter, an
underscore, or further digits. -/
def digitGuarded (l : List Char) : Bool :=
  (wordRuns l).all (fun r => !hasSixB r || longDigitRun r)

/-! ### HTML extractors

The extraction regexes are embedded as character scanners.  A bounded
class repetition `[^x]+` / `[^x]*` followed by more pattern is matched
with full backtracking over the split (every split is tried, earliest
first); this has the same success/failure semantics as the JavaScript
engine, which tries every split latest-first.  On the analysed inputs
each pattern occurs at most once per tag, where both orders also agree
on the captured value.  Captures `([^q]+)q` are deterministic: the class
excludes the closing delimiter, so the capture ends at its first
occurrence. -/

def matchCI : List Char → List Char → Option (List Char)
  | [], l => some l
  | _ :: _, [] => none
  | p :: ps, c :: cs => if lc c == lc p then matchCI ps cs else none

def expectChar (ch : Char) : List Char → Option (List Char)
  | c :: cs => if c == ch then some cs else none
  | [] => none

def expectQuote : List Char → Option (List Char)
  | c :: cs => if isQuote c then some cs else none
  | [] => none

/-- `[^stop]+` followed by the continuation `k`, trying every nonempty
class run. -/
def scanPlus (stop : Char → Bool) (k : List Char → Option α) : List Char → Option α
  | [] => none
  | c :: cs => if stop c then none else (k cs <|> scanPlus stop k cs)

/-- `[^stop]*` followed by the continuation `k`. -/
def scanStar (stop : Char → Bool) (k : List Char → Option α) (l : List Char) : Option α :=
  k l <|> scanPlus stop k l

/-- A nonempty capture of characters not satisfying `stop`; the returned
rest still begins with the terminating character. -/
def takeCapture (stop : Char → Bool) (l : List Char) : Option (List Char × List Char) :=
  match l.takeWhile (fun c => !stop c) with
  | [] => none
  | cap => some (cap, l.dropWhile (fun c => !stop c))

/-- Try the matcher at every position, leftmost first. -/
def firstMatch (f : List Char → Option α) : List Char → Option α
  | [] => f []
  | c :: cs => f (c :: cs) <|> firstMatch f cs

/-- `<meta[^>]+property=["']PROP["'][^>]+content=["']([^"']+)["']` with
the `i` flag, returning the capture. -/
def metaAt (prop : List Char) (l : List Char) : Option (List Char) :=
  match matchCI "<meta".data l with
  | none => none
  | some r₁ =>
    scanPlus (fun c => c == '>') (fun r => do
      let r ← matchCI "property=".data r
      let r ← expectQuote r
      let r ← matchCI prop r
      let r ← expectQuote r
      scanPlus (fun c => c == '>') (fun r₂ => do
        let r₂ ← matchCI "content=".data r₂
        let r₂ ← expectQuote r₂
        let (cap, r₃) ← takeCapture isQuote r₂
        let _ ← expectQuote r₃
        pure cap) r) r₁

def metaContent (prop : String) (html : String) : Option String :=
  (firstMatch (metaAt prop.data) html.data).map List.asString

/-- `<title[^>]*>([^<]+)<\/title>` with the `i` flag. -/
def titleAt (l : List Char) : Option (List Char) :=
  match matchCI "<title".data l with
  | none => none
  | some r =>
    scanStar (fun c => c == '>') (fun r₂ => do
      let r₂ ← expectChar '>' r₂
      let (cap, r₃) ← takeCapture (fun c => c == '<') r₂
      let _ ← matchCI "</title>".data r₃
      pure cap) r

/-- `extractTitle` from the source: prefer `og:title`, fall back to the
`<title>` element, else the empty string. -/
def extractTitle (html : String) : String :=
  match metaContent "og:title" html with
  | some t => t
  | none =>
    match firstMatch titleAt html.data with
    | some t => t.asString
    | none => ""

def imgKeywords : List String := ["product", "main", "image", "photo", "picture"]

/-- `<img[^>]+src=["']([^"']+)["'][^>]*class=["'][^"']*(product|main|image|photo|picture)[^"']*["']`
with the `i` flag, returning the `src` capture.  The keyword alternation
inside the quote-free class value amounts to one of the keywords
occurring (case-insensitively) in the value. -/
def imgAt (l : List Char) : Option (List Char) :=
  match matchCI "<img".data l with
  | none => none
  | some r₁ =>
    scanPlus (fun c => c == '>') (fun r => do
      let r ← matchCI "src=".data r
      let r ← expectQuote r
      let (cap, r₂) ← takeCapture isQuote r
      let r₂ ← expectQuote r₂
      scanStar (fun c => c == '>') (fun r₃ => do
        let r₃ ← matchCI "class=".data r₃
        let r₃ ← expectQuote r₃
        let (seg, r₄) ← takeCapture isQuote r₃
        let _ ← expectQuote r₄
        if imgKeywords.any (fun kw => withinList (lcList kw.data) (lcList seg)) then pure cap
        else none) r₂) r₁

/-- The matched image URL before relative-URL fixing: `og:image` meta
tag first, then the keyword-classed `<img>`. -/
def rawImage (html : String) : Option String :=
  ((firstMatch (metaAt "og:image".data) html.data) <|> firstMatch imgAt html.data).map
    List.asString

/-- The `// Fix relative` step of `extractImage`:
`if (imageUrl.startsWith("/")) imageUrl = new URL(candidate).origin + imageUrl;`.
A throwing `new URL(candidate)` would be caught by the strategy's
per-candidate `catch` after the trace entry is pushed, which skips the
candidate exactly like a failed extraction, so it is folded into
`none`. -/
def resolveImage (candidate imageUrl : String) : Option String :=
  if startsList "/".data imageUrl.data then
    (parseURL candidate).map (fun p => urlOrigin p ++ imageUrl)
  else some imageUrl

/-- `extractImage` from the source. -/
def extractImage (candidate html : String) : Option String :=
  (rawImage html).bind (resolveImage candidate)

/-! ### Candidate source (`ddgLinks`) -/

/-- One global-regex step of
`<a[^>]+class="result__a"[^>]+href="([^"]+)"` (flag `gi`): the capture
plus the rest of the input after the match. -/
def anchorAt (l : List Char) : Option (List Char × List Char) :=
  match matchCI "<a".data l with
  | none => none
  | some r₁ =>
    scanPlus (fun c => c == '>') (fun r => do
      let r ← matchCI "class=\"result__a\"".data r
      scanPlus (fun c => c == '>') (fun r₂ => do
        let r₂ ← matchCI "href=\"".data r₂
        let (cap, r₃) ← takeCapture (fun c => c == '"') r₂
        let r₃ ← expectChar '"' r₃
        pure (cap, r₃)) r) r₁

/-- `matchAll`: successive non-overlapping leftmost matches, each search
resuming after the previous match.  All scanners return suffixes of
their input and a match consumes at least one character, so the fuel
`l.length` never runs out. -/
def anchorsGo : ℕ → List Char → List (List Char)
  | 0, _ => []
  | _ + 1, [] => []
  | n + 1, l@(_ :: cs) =>
    match anchorAt l with
    | some (cap, rest) => cap :: anchorsGo n rest
    | none => anchorsGo n cs

def matchAllAnchors (html : String) : List String :=
  (anchorsGo html.data.length html.data).map List.asString

/-- The redirect unwrapping inside `ddgLinks`: decode the `uddg`
parameter of a DuckDuckGo `/l/` link, passing every other URL through;
any thrown error (URL parse, `decodeURIComponent`) falls through to
`return url`. -/
def unwrapDdg (url : String) : String :=
  match parseURL url with
  | some u =>
    if strContains u.host "duckduckgo.com" && startsList "/l/".data u.pathname.data then
      match queryGet u.query "uddg" with
      | some raw =>
        if raw ≠ "" then
          match decodeURIComponentS raw with
          | some dec => dec
          | none => url
        else url
      | none => url
    else url
  | none => url

/-- The pure part of `ddgLinks`, applied to the fetched results-page
HTML: anchor extraction, protocol-relative normalisation, redirect
unwrapping, the (hard-coded) `bringo.ma` hostname filter, and the cap at
8 results. -/
def ddgLinksOfHtml (html : String) : List String :=
  (((matchAllAnchors html).map
      (fun u => if startsList "//".data u.data then "https:" ++ u else u)).map
    unwrapDdg).filter (fun u₂ => hostContains u₂ "bringo.ma") |>.take 8

/-! ### The network oracle and the strategies -/

/-- The network, as seen by one request.  `searchPage` is the fetched
HTML of the DuckDuckGo results page for a URL (this fetch is outside any
`try` in the source, so its failure would abort the whole request; it is
modelled as total since no claim concerns it).  `page u` models
`fetch(u)` plus `res.text()` on a candidate page: `none` when either
throws, otherwise `some (res.ok, html)`. -/
structure Network where
  searchPage : String → String
  page : String → Option (Bool × String)

def ddgUrl (query : String) : String :=
  "https://duckduckgo.com/html/?q=" ++ encodeURIComponentS query

def ddgLinks (net : Network) (query : String) : List String :=
  ddgLinksOfHtml (net.searchPage (ddgUrl query))

/-- A successful match: the fields of `okPayload` minus the response
shaping.  The score of a token match, `1.0` in the source, is the score
pair `(1, 1)` (whose value `scoreVal (1, 1)` is `1`). -/
structure Payload where
  imageUrl : String
  productUrl : String
  score : ℕ × ℕ
deriving DecidableEq, Repr

/-- One trace entry.  `token` is `{candidate, reason: "token", ok}` (the
constant `reason` field lives in the constructor); `byName` is
`{candidate, title, score}`. -/
inductive Attempt where
  | token (candidate : String) (ok : Bool)
  | byName (candidate title : String) (score : ℕ × ℕ)
deriving DecidableEq, Repr

def Attempt.cand : Attempt → String
  | .token c _ => c
  | .byName c _ _ => c

/-- A strategy outcome: the source's `{ok, payload}` / `{ok: false}`
plus `tried`, extended with the observation `fetched` — the candidate
URLs for which a page fetch was issued, in order. -/
structure StratOut where
  result : Option Payload
  tried : List Attempt
  fetched : List String
deriving DecidableEq, Repr

/-- The candidate loop of `findByToken`.  Note the source pushes the
trace entry only after `await fetch` and `await res.text()` both
succeed; a throw skips the push (`fetched` records the attempt
regardless). -/
def tokenLoop (net : Network) (accept : String → Bool) : List String → StratOut
  | [] => ⟨none, [], []⟩
  | c :: rest =>
    match net.page c with
    | none =>
      let o := tokenLoop net accept rest
      ⟨o.result, o.tried, c :: o.fetched⟩
    | some (ok, html) =>
      if accept html then
        match extractImage c html with
        | some img => ⟨some ⟨img, c, (1, 1)⟩, [.token c ok], [c]⟩
        | none =>
          let o := tokenLoop net accept rest
          ⟨o.result, .token c ok :: o.tried, c :: o.fetched⟩
      else
        let o := tokenLoop net accept rest
        ⟨o.result, .token c ok :: o.tried, c :: o.fetched⟩

def searchQuery (site token : String) : String := "site:" ++ site ++ " " ++ token

def findByToken (net : Network) (site token : String) (accept : String → Bool) : StratOut :=
  tokenLoop net accept (ddgLinks net (searchQuery site token))

/-- The candidate loop of `findByName`; `qa` is `tokens(qName)`.  On a
candidate scoring `>= 0.6` with an extractable image the loop `break`s,
which makes the payload's `tried` end at that candidate. -/
def nameLoop (net : Network) (qa : List String) : List String → StratOut
  | [] => ⟨none, [], []⟩
  | c :: rest =>
    match net.page c with
    | none =>
      let o := nameLoop net qa rest
      ⟨o.result, o.tried, c :: o.fetched⟩
    | some (_, html) =>
      let title := extractTitle html
      let sc := simScore qa (tokens title)
      if simAccept qa (tokens title) then
        match extractImage c html with
        | some img => ⟨some ⟨img, c, sc⟩, [.byName c title sc], [c]⟩
        | none =>
          let o := nameLoop net qa rest
          ⟨o.result, .byName c title sc :: o.tried, c :: o.fetched⟩
      else
        let o := nameLoop net qa rest
        ⟨o.result, .byName c title sc :: o.tried, c :: o.fetched⟩

def findByName (net : Network) (site rawName : String) : StratOut :=
  nameLoop net (tokens (cleanName rawName))
    (ddgLinks net (searchQuery site (cleanName rawName)))

/-! ### The dispatcher -/

inductive Strat where
  | subcode
  | ean
  | byName
deriving DecidableEq, Repr

/-- Observations of one dispatch: strategies invoked, candidate fetches
and searches issued, each tagged with the responsible strategy. -/
structure Trace where
  invoked : List Strat
  fetched : List (Strat × String)
  searches : List (Strat × String)
deriving DecidableEq, Repr

def Trace.app (t₁ t₂ : Trace) : Trace :=
  ⟨t₁.invoked ++ t₂.invoked, t₁.fetched ++ t₂.fetched, t₁.searches ++ t₂.searches⟩

/-- Every fetch and search in the trace is tagged with a strategy that
was actually invoked. -/
def wellTagged (t : Trace) : Prop :=
  (∀ p ∈ t.fetched, p.1 ∈ t.invoked) ∧ ∀ p ∈ t.searches, p.1 ∈ t.invoked

/-- A response body: the `400` error shape, the success shape (`tried`
present only under `debug`), or the `404` no-match shape (whose `tried`
is the list of per-strategy `tried` arrays, as pushed by the
dispatcher). -/
inductive Body where
  | err (msg : String)
  | hit (imageUrl productUrl matchedBy : String) (score : ℕ × ℕ) (tried : Option (List Attempt))
  | miss (tried : List (List Attempt))
deriving DecidableEq, Repr

structure Resp where
  status : ℕ
  body : Body
deriving DecidableEq, Repr

def hitResp (debug : Bool) (tag : String) (p : Payload) (tried : List Attempt) : Resp :=
  ⟨200, .hit p.imageUrl p.productUrl tag p.score (if debug then some tried else none)⟩

def stratTrace (s : Strat) (q : String) (o : StratOut) : Trace :=
  ⟨[s], o.fetched.map (fun u => (s, u)), [(s, q)]⟩

/-- Stage 3 of the dispatcher (`// 3) Fallback: Name + fuzzy title check`). -/
def dispatchName (net : Network) (debug : Bool) (site nm : String)
    (tried : List (List Attempt)) (tr : Trace) : Resp × Trace :=
  if nm ≠ "" then
    let r := findByName net site nm
    let tr' := tr.app (stratTrace .byName (searchQuery site (cleanName nm)) r)
    match r.result with
    | some p => (hitResp debug "name" p r.tried, tr')
    | none => (⟨404, .miss (tried ++ [r.tried])⟩, tr')
  else (⟨404, .miss tried⟩, tr)

/-- Stage 2 of the dispatcher (`// 2) Try EAN/Barcode`), gated on the
format check. -/
def dispatchEan (net : Network) (debug : Bool) (site ean nm : String)
    (tried : List (List Attempt)) (tr : Trace) : Resp × Trace :=
  if ean ≠ "" && validEan ean then
    let r := findByToken net site ean (fun html => strContains html ean)
    let tr' := tr.app (stratTrace .ean (searchQuery site ean) r)
    match r.result with
    | some p => (hitResp debug "subcode/ean" p r.tried, tr')
    | none => dispatchName net debug site nm (tried ++ [r.tried]) tr'
  else dispatchName net debug site nm tried tr

/-- Stage 1 of the dispatcher (`// 1) Try Subcode`). -/
def dispatchSub (net : Network) (debug : Bool) (site subcode ean nm : String) : Resp × Trace :=
  if subcode ≠ "" then
    let r := findByToken net site subcode (fun html => containsProductNumber html subcode)
    let tr := stratTrace .subcode (searchQuery site subcode) r
    match r.result with
    | some p => (hitResp debug "subcode/ean" p r.tried, tr)
    | none => dispatchEan net debug site ean nm [r.tried] tr
  else dispatchEan net debug site ean nm [] ⟨[], [], []⟩

/-- The parsed query parameters of a request: `none` for an absent
parameter; `debug` is `searchParams.has("debug")`. -/
structure Request where
  site : Option String
  subcode : Option String
  ean : Option String
  name : Option String
  debug : Bool

/-- `.trim()` (list-level, same whitespace model throughout). -/
def trimS (s : String) : String := (trimWS s.data).asString

/-- `url.searchParams.get("site") || "bringo.ma"` — an empty string is
falsy. -/
def reqSite (req : Request) : String :=
  match req.site with
  | some s => if s = "" then "bringo.ma" else s
  | none => "bringo.ma"

def reqSub (req : Request) : String := trimS (req.subcode.getD "")

def reqEan (req : Request) : String := trimS (req.ean.getD "")

def reqName (req : Request) : String := trimS (req.name.getD "")

/-- The worker's `fetch` handler, as a function of the oracle and the
parsed request, returning the response and the observation trace. -/
def dispatch (net : Network) (req : Request) : Resp × Trace :=
  if reqSub req = "" && reqEan req = "" && reqName req = "" then
    (⟨400, .err "Provide subcode, ean or name."⟩, ⟨[], [], []⟩)
  else dispatchSub net req.debug (reqSite req) (reqSub req) (reqEan req) (reqName req)

/-! ### Specification-side functions for the dispatcher claims -/

/-- The strategies applicable to a request, in priority order: subcode,
then format-valid EAN, then name. -/
def applicables (req : Request) : List Strat :=
  (if reqSub req ≠ "" then [Strat.subcode] else []) ++
    (if reqEan req ≠ "" && validEan (reqEan req) then [Strat.ean] else []) ++
      (if reqName req ≠ "" then [Strat.byName] else [])

/-- Whether a given strategy, run on its own against the oracle, would
produce a match for this request. -/
def succeeds (net : Network) (req : Request) : Strat → Bool
  | .subcode =>
    (findByToken net (reqSite req) (reqSub req)
      (fun h => containsProductNumber h (reqSub req))).result.isSome
  | .ean =>
    (findByToken net (reqSite req) (reqEan req)
      (fun h => strContains h (reqEan req))).result.isSome
  | .byName => (findByName net (reqSite req) (reqName req)).result.isSome

/-- The elements of a list up to and including the first satisfying `p`. -/
def upToFirst (p : Strat → Bool) : List Strat → List Strat
  | [] => []
  | s :: rest => if p s then [s] else s :: upToFirst p rest

/-- A candidate qualifies for the name strategy: its page fetch completes,
its extracted title scores at least 0.6 against the query tokens `qa`,
and an image can be extracted from it. -/
def qualB (net : Network) (qa : List String) (c : String) : Bool :=
  match net.page c with
  | some (_, html) => simAccept qa (tokens (extractTitle html)) && (extractImage c html).isSome
  | none => false

/-- The same request with the `ean` parameter absent. -/
def withoutEan (req : Request) : Request :=
  ⟨req.site, req.subcode, none, req.name, req.debug⟩

/-! ### Concrete fixtures for the closed-instance theorems -/

/-- A results page with one organic link to `bringo.ma`. -/
def anchorHtml : String := "<a x class=\"result__a\" href=\"https://bringo.ma/p/1\">t</a>"

/-- A results page whose first organic link points outside `bringo.ma` at
a page of `example.com`, and whose second points at `bringo.ma`. -/
def twoAnchorHtml : String :=
  "<a x class=\"result__a\" href=\"https://example.com/p/1\">t</a>" ++
    "<a y class=\"result__a\" href=\"https://bringo.ma/x\">u</a>"

/-- A product page carrying the subcode label and an Open-Graph image. -/
def subHtml : String :=
  "Numero du produit: 694062 " ++
    "<meta x property=\"og:image\" content=\"https://img.bringo.ma/x.jpg\">"

/-- A product page with an Open-Graph title and image. -/
def nameHtml : String :=
  "<meta x property=\"og:title\" content=\"sofa\">" ++
    "<meta x property=\"og:image\" content=\"https://img.bringo.ma/x.jpg\">"

/-- Oracle: search results exist but every candidate page fetch throws. -/
def netNone : Network := ⟨fun _ => anchorHtml, fun _ => none⟩

/-- Oracle: one candidate whose page matches the subcode `694062`. -/
def netSub : Network := ⟨fun _ => anchorHtml, fun _ => some (true, subHtml)⟩

/-- Oracle: one candidate whose page titles `sofa` with an image. -/
def netName : Network := ⟨fun _ => anchorHtml, fun _ => some (true, nameHtml)⟩

/-! ## Theorems -/

/-! ### Character facts -/

theorem toNat_ofNat_valid {n : ℕ} (h : n < 55296) : (Char.ofNat n).toNat = n := by
  have hv : n.isValidChar := Or.inl h
  rw [Char.ofNat, dif_pos hv]
  rfl

theorem lc_of_isDigit {c : Char} (h : c.isDigit = true) : lc c = c := by
  simp only [Char.isDigit, Bool.and_eq_true, decide_eq_true_eq] at h
  obtain ⟨h1, h2⟩ := h
  rw [ge_iff_le, UInt32.le_def, BitVec.le_def] at h1
  rw [UInt32.le_def, BitVec.le_def] at h2
  have e48 : ((48 : UInt32)).toBitVec.toNat = 48 := rfl
  have e57 : ((57 : UInt32)).toBitVec.toNat = 57 := rfl
  simp only [lc, Char.toLower]
  have hn : c.toNat = c.val.toBitVec.toNat := rfl
  split
  · next hcond =>
    exfalso
    obtain ⟨ha, _⟩ := hcond
    rw [hn] at ha
    omega
  · rfl

theorem eq_of_lc_eq_digit {x d : Char} (hd : d.isDigit = true) (h : lc x = d) : x = d := by
  simp only [Char.isDigit, Bool.and_eq_true, decide_eq_true_eq] at hd
  obtain ⟨h1, h2⟩ := hd
  rw [ge_iff_le, UInt32.le_def, BitVec.le_def] at h1
  rw [UInt32.le_def, BitVec.le_def] at h2
  have e48 : ((48 : UInt32)).toBitVec.toNat = 48 := rfl
  have e57 : ((57 : UInt32)).toBitVec.toNat = 57 := rfl
  simp only [lc, Char.toLower] at h
  split at h
  · next hcond =>
    exfalso
    obtain ⟨ha, hb⟩ := hcond
    have hdn : d.toNat = d.val.toBitVec.toNat := rfl
    have hx : (Char.ofNat (x.toNat + 32)).toNat = x.toNat + 32 :=
      toNat_ofNat_valid (by omega)
    have hde : d.toNat = x.toNat + 32 := by rw [← h]; exact hx
    omega
  · exact h

theorem not_ws_of_isDigit {c : Char} (h : c.isDigit = true) : c.isWhitespace = false := by
  have h1 : c ≠ ' ' := by intro he; rw [he] at h; exact absurd h (by decide)
  have h2 : c ≠ '\t' := by intro he; rw [he] at h; exact absurd h (by decide)
  have h3 : c ≠ '\r' := by intro he; rw [he] at h; exact absurd h (by decide)
  have h4 : c ≠ '\n' := by intro he; rw [he] at h; exact absurd h (by decide)
  simp [Char.isWhitespace, h1, h2, h3, h4]

theorem wordChar_of_isDigit {c : Char} (h : c.isDigit = true) : wordChar c = true := by
  simp [wordChar, Char.isAlphanum, h]

theorem punctPass_of_isDigit {c : Char} (h : c.isDigit = true) : punctPass c = c := by
  simp [punctPass, h]

theorem isDigit_of_punctPass {c : Char} (h : (punctPass c).isDigit = true) :
    c.isDigit = true ∧ punctPass c = c := by
  rcases hb : (c.isAlpha || c.isDigit || c.isWhitespace : Bool) with _ | _
  · have hp : punctPass c = ' ' := by simp only [punctPass, hb]; rfl
    rw [hp] at h
    exact absurd h (by decide)
  · have hp : punctPass c = c := by simp only [punctPass, hb]; rfl
    rw [hp] at h
    exact ⟨h, hp⟩

theorem ne_space_of_isDigit {c : Char} (h : c.isDigit = true) : c ≠ ' ' := by
  intro he; rw [he] at h; exact absurd h (by decide)

/-! ### Substring machinery (`Starts`, `Within`) -/

theorem starts_iff : ∀ {p l : List Char}, startsList p l = true ↔ Starts p l := by
  intro p
  induction p with
  | nil =>
    intro l
    constructor
    · intro _
      exact ⟨l, rfl⟩
    · intro _
      rfl
  | cons a ps ih =>
    intro l
    cases l with
    | nil =>
      constructor
      · intro hh
        exact absurd hh (by simp [startsList])
      · rintro ⟨t, ht⟩
        exact absurd ht (by simp)
    | cons c cs =>
      constructor
      · intro hh
        simp only [startsList, Bool.and_eq_true, beq_iff_eq] at hh
        obtain ⟨rfl, h2⟩ := hh
        obtain ⟨t, rfl⟩ := ih.mp h2
        exact ⟨t, rfl⟩
      · rintro ⟨t, ht⟩
        rw [List.cons_append] at ht
        obtain ⟨rfl, h2⟩ := (List.cons.injEq c cs a (ps ++ t)).mp ht
        simp only [startsList, Bool.and_eq_true, beq_iff_eq]
        exact ⟨by simp, ih.mpr ⟨t, h2⟩⟩

theorem within_extend {m s t l : List Char} (h : Within m l) : Within m (s ++ l ++ t) := by
  obtain ⟨a, b, rfl⟩ := h
  exact ⟨s ++ a, b ++ t, by simp⟩

theorem within_cons {m l : List Char} (c : Char) (h : Within m l) : Within m (c :: l) := by
  obtain ⟨a, b, rfl⟩ := h
  exact ⟨c :: a, b, rfl⟩

theorem within_iff : ∀ {p l : List Char}, withinList p l = true ↔ Within p l := by
  intro p l
  induction l with
  | nil =>
    rw [show withinList p [] = startsList p [] from rfl, starts_iff]
    constructor
    · rintro ⟨t, ht⟩
      exact ⟨[], t, by simpa using ht⟩
    · rintro ⟨s, t, ht⟩
      obtain ⟨hs, hpt⟩ := List.append_eq_nil.mp (List.append_assoc s p t ▸ ht.symm)
      obtain ⟨hp, _⟩ := List.append_eq_nil.mp hpt
      subst hp
      exact ⟨[], rfl⟩
  | cons c cs ih =>
    rw [show withinList p (c :: cs) = (startsList p (c :: cs) || withinList p cs) from rfl]
    simp only [Bool.or_eq_true, starts_iff, ih]
    constructor
    · rintro (⟨t, ht⟩ | hw)
      · exact ⟨[], t, by simpa using ht⟩
      · exact within_cons c hw
    · rintro ⟨s, t, ht⟩
      cases s with
      | nil =>
        left
        exact ⟨t, by simpa using ht⟩
      | cons x xs =>
        right
        rw [List.cons_append, List.cons_append] at ht
        obtain ⟨rfl, h2⟩ := (List.cons.injEq c cs x (xs ++ p ++ t)).mp ht
        exact ⟨xs, t, h2⟩

theorem within_map {f : Char → Char} {m₀ l : List Char} (h : Within m₀ l) :
    Within (m₀.map f) (l.map f) := by
  obtain ⟨s, t, rfl⟩ := h
  exact ⟨s.map f, t.map f, by simp⟩

theorem map_within {f : Char → Char} {m l : List Char} (h : Within m (l.map f)) :
    ∃ m₀, Within m₀ l ∧ m₀.map f = m := by
  obtain ⟨s, t, he⟩ := h
  have h1 : s ++ (m ++ t) = l.map f := by rw [he, List.append_assoc]
  obtain ⟨s₁, r₁, rfl, hs₁, hr₁⟩ := List.append_eq_map_iff.mp h1
  obtain ⟨m₀, t₀, rfl, hm₀, ht₀⟩ := List.append_eq_map_iff.mp hr₁.symm
  exact ⟨m₀, ⟨s₁, t₀, by simp⟩, hm₀⟩

/-! ### Fuel elimination: the natural recursion equations

Each fueled scanner is invariant under any sufficient fuel, which
recovers the intended recursion equations. -/

theorem dropWhile_len (p : Char → Bool) (l : List Char) : (l.dropWhile p).length ≤ l.length :=
  (List.dropWhile_suffix p).length_le

theorem collapseGo_nil : ∀ n, collapseGo n [] = [] := by
  intro n
  cases n <;> rfl

theorem collapseGo_congr : ∀ n m (l : List Char), l.length ≤ n → l.length ≤ m →
    collapseGo n l = collapseGo m l := by
  intro n
  induction n with
  | zero =>
    intro m l h1 _
    rw [List.eq_nil_of_length_eq_zero (Nat.le_zero.mp h1), collapseGo_nil, collapseGo_nil]
  | succ n ih =>
    intro m l h1 h2
    cases l with
    | nil => rw [collapseGo_nil, collapseGo_nil]
    | cons c cs =>
      cases m with
      | zero => exact absurd h2 (by simp)
      | succ m =>
        simp only [List.length_cons, Nat.add_le_add_iff_right] at h1 h2
        simp only [collapseGo]
        cases hc : c.isWhitespace <;> simp only [if_pos, if_neg, Bool.false_eq_true, if_false,
          if_true, List.cons.injEq, true_and]
        · exact ih m cs h1 h2
        · exact ih m (cs.dropWhile Char.isWhitespace) (le_trans (dropWhile_len _ cs) h1)
            (le_trans (dropWhile_len _ cs) h2)

theorem collapseWS_cons (c : Char) (cs : List Char) : collapseWS (c :: cs) =
    if c.isWhitespace then ' ' :: collapseWS (cs.dropWhile Char.isWhitespace)
    else c :: collapseWS cs := by
  show collapseGo (c :: cs).length (c :: cs) = _
  simp only [List.length_cons, collapseGo]
  cases hc : c.isWhitespace <;> simp only [Bool.false_eq_true, if_false, if_true,
    List.cons.injEq, true_and]
  · rfl
  · exact collapseGo_congr cs.length (cs.dropWhile Char.isWhitespace).length
      (cs.dropWhile Char.isWhitespace) (dropWhile_len _ cs) le_rfl

theorem replGo_nil (p : List Char → Bool) : ∀ n, replGo p n [] = [] := by
  intro n
  cases n <;> rfl

theorem replGo_congr (p : List Char → Bool) : ∀ n m (l : List Char),
    l.length ≤ n → l.length ≤ m → replGo p n l = replGo p m l := by
  intro n
  induction n with
  | zero =>
    intro m l h1 _
    rw [List.eq_nil_of_length_eq_zero (Nat.le_zero.mp h1), replGo_nil, replGo_nil]
  | succ n ih =>
    intro m l h1 h2
    cases l with
    | nil => rw [replGo_nil, replGo_nil]
    | cons c cs =>
      cases m with
      | zero => exact absurd h2 (by simp)
      | succ m =>
        simp only [List.length_cons, Nat.add_le_add_iff_right] at h1 h2
        simp only [replGo]
        cases hc : wordChar c <;> simp only [Bool.false_eq_true, if_false, if_true,
          List.cons.injEq, true_and, List.append_cancel_left_eq]
        · exact ih m cs h1 h2
        · exact ih m (cs.dropWhile wordChar) (le_trans (dropWhile_len _ cs) h1)
            (le_trans (dropWhile_len _ cs) h2)

theorem replRuns_cons (p : List Char → Bool) (c : Char) (cs : List Char) :
    replRuns p (c :: cs) =
      if wordChar c then
        (if p ((c :: cs).takeWhile wordChar) then [' '] else (c :: cs).takeWhile wordChar) ++
          replRuns p (cs.dropWhile wordChar)
      else c :: replRuns p cs := by
  show replGo p (c :: cs).length (c :: cs) = _
  simp only [List.length_cons, replGo]
  cases hc : wordChar c <;> simp only [Bool.false_eq_true, if_false, if_true,
    List.cons.injEq, true_and, List.append_cancel_left_eq]
  · rfl
  · exact replGo_congr p cs.length (cs.dropWhile wordChar).length
      (cs.dropWhile wordChar) (dropWhile_len _ cs) le_rfl

theorem wordRunsGo_nil : ∀ n, wordRunsGo n [] = [] := by
  intro n
  cases n <;> rfl

theorem wordRunsGo_congr : ∀ n m (l : List Char), l.length ≤ n → l.length ≤ m →
    wordRunsGo n l = wordRunsGo m l := by
  intro n
  induction n with
  | zero =>
    intro m l h1 _
    rw [List.eq_nil_of_length_eq_zero (Nat.le_zero.mp h1), wordRunsGo_nil, wordRunsGo_nil]
  | succ n ih =>
    intro m l h1 h2
    cases l with
    | nil => rw [wordRunsGo_nil, wordRunsGo_nil]
    | cons c cs =>
      cases m with
      | zero => exact absurd h2 (by simp)
      | succ m =>
        simp only [List.length_cons, Nat.add_le_add_iff_right] at h1 h2
        simp only [wordRunsGo]
        cases hc : wordChar c <;> simp only [Bool.false_eq_true, if_false, if_true,
          List.cons.injEq, true_and]
        · exact ih m cs h1 h2
        · exact ih m (cs.dropWhile wordChar) (le_trans (dropWhile_len _ cs) h1)
            (le_trans (dropWhile_len _ cs) h2)

theorem wordRuns_cons (c : Char) (cs : List Char) :
    wordRuns (c :: cs) =
      if wordChar c then (c :: cs).takeWhile wordChar :: wordRuns (cs.dropWhile wordChar)
      else wordRuns cs := by
  show wordRunsGo (c :: cs).length (c :: cs) = _
  simp only [List.length_cons, wordRunsGo]
  cases hc : wordChar c <;> simp only [Bool.false_eq_true, if_false, if_true,
    List.cons.injEq, true_and]
  · rfl
  · exact wordRunsGo_congr cs.length (cs.dropWhile wordChar).length (cs.dropWhile wordChar)
      (dropWhile_len _ cs) le_rfl

theorem splitClose_len : ∀ {cs rest : List Char}, splitCloseParen cs = some rest →
    rest.length < cs.length := by
  intro cs
  induction cs with
  | nil =>
    intro rest h
    exact absurd h (by simp [splitCloseParen])
  | cons c cs ih =>
    intro rest h
    simp only [splitCloseParen] at h
    by_cases hc : c = ')'
    · rw [if_pos hc] at h
      obtain rfl := Option.some.inj h
      simp
    · rw [if_neg hc] at h
      exact Nat.lt_trans (ih h) (by simp)

theorem parenGo_nil : ∀ n, parenGo n [] = [] := by
  intro n
  cases n <;> rfl

theorem parenGo_congr : ∀ n m (l : List Char), l.length ≤ n → l.length ≤ m →
    parenGo n l = parenGo m l := by
  intro n
  induction n with
  | zero =>
    intro m l h1 _
    rw [List.eq_nil_of_length_eq_zero (Nat.le_zero.mp h1), parenGo_nil, parenGo_nil]
  | succ n ih =>
    intro m l h1 h2
    cases l with
    | nil => rw [parenGo_nil, parenGo_nil]
    | cons c cs =>
      cases m with
      | zero => exact absurd h2 (by simp)
      | succ m =>
        simp only [List.length_cons, Nat.add_le_add_iff_right] at h1 h2
        simp only [parenGo]
        cases hc : (c == '(') <;> simp only [Bool.false_eq_true, if_false, if_true,
          List.cons.injEq, true_and]
        · exact ih m cs h1 h2
        · cases hs : splitCloseParen cs with
          | none => exact congrArg _ (ih m cs h1 h2)
          | some rest =>
            have hlen := splitClose_len hs
            exact congrArg _ (ih m rest (le_trans (Nat.le_of_lt hlen) h1)
              (le_trans (Nat.le_of_lt hlen) h2))

theorem stripParens_cons_other {c : Char} (cs : List Char) (hc : (c == '(') = false) :
    stripParens (c :: cs) = c :: stripParens cs := by
  show parenGo (c :: cs).length (c :: cs) = _
  simp only [List.length_cons, parenGo, hc, Bool.false_eq_true, if_false]
  rfl

theorem stripParens_cons_open_some {cs rest : List Char}
    (hs : splitCloseParen cs = some rest) :
    stripParens ('(' :: cs) = ' ' :: stripParens rest := by
  show parenGo ('(' :: cs).length ('(' :: cs) = _
  simp only [List.length_cons, parenGo, hs]
  rw [if_pos (by decide)]
  exact congrArg _ (parenGo_congr cs.length rest.length rest
    (Nat.le_of_lt (splitClose_len hs)) le_rfl)

theorem stripParens_cons_open_none {cs : List Char} (hs : splitCloseParen cs = none) :
    stripParens ('(' :: cs) = '(' :: stripParens cs := by
  show parenGo ('(' :: cs).length ('(' :: cs) = _
  simp only [List.length_cons, parenGo, hs]
  rw [if_pos (by decide)]
  rfl

theorem tokGo_nil : ∀ n, tokGo n [] = [] := by
  intro n
  cases n <;> rfl

theorem tokGo_congr : ∀ n m (l : List Char), l.length ≤ n → l.length ≤ m →
    tokGo n l = tokGo m l := by
  intro n
  induction n with
  | zero =>
    intro m l h1 _
    rw [List.eq_nil_of_length_eq_zero (Nat.le_zero.mp h1), tokGo_nil, tokGo_nil]
  | succ n ih =>
    intro m l h1 h2
    cases l with
    | nil => rw [tokGo_nil, tokGo_nil]
    | cons c cs =>
      cases m with
      | zero => exact absurd h2 (by simp)
      | succ m =>
        simp only [List.length_cons, Nat.add_le_add_iff_right] at h1 h2
        simp only [tokGo]
        cases hc : c.isWhitespace <;> simp only [Bool.false_eq_true, if_false, if_true,
          List.cons.injEq, true_and]
        · exact ih m (cs.dropWhile (fun x => !x.isWhitespace))
            (le_trans (dropWhile_len _ cs) h1) (le_trans (dropWhile_len _ cs) h2)
        · exact ih m cs h1 h2

theorem splitNonWS_cons (c : Char) (cs : List Char) :
    splitNonWS (c :: cs) =
      if c.isWhitespace then splitNonWS cs
      else (c :: cs).takeWhile (fun x => !x.isWhitespace) ::
        splitNonWS (cs.dropWhile (fun x => !x.isWhitespace)) := by
  show tokGo (c :: cs).length (c :: cs) = _
  simp only [List.length_cons, tokGo]
  cases hc : c.isWhitespace <;> simp only [Bool.false_eq_true, if_false, if_true,
    List.cons.injEq, true_and]
  · exact tokGo_congr cs.length (cs.dropWhile (fun x => !x.isWhitespace)).length
      (cs.dropWhile (fun x => !x.isWhitespace)) (dropWhile_len _ cs) le_rfl
  · rfl

/-! ### Similarity scorer lemmas -/

theorem scoreDen_pos (n : ℕ) : (0 : ℝ) < max 1 (Real.sqrt n) :=
  lt_of_lt_of_le one_pos (le_max_left _ _)

theorem simScore_sq_le (a b : List String) :
    (simScore a b).1 * (simScore a b).1 ≤ (simScore a b).2 := by
  have h1 : (simScore a b).1 ≤ a.toFinset.card :=
    Finset.card_le_card Finset.inter_subset_left
  have h2 : (simScore a b).1 ≤ b.toFinset.card :=
    Finset.card_le_card Finset.inter_subset_right
  exact Nat.mul_le_mul h1 h2

theorem similarity_nonneg (a b : List String) : 0 ≤ similarity a b :=
  div_nonneg (Nat.cast_nonneg _) (le_of_lt (scoreDen_pos _))

theorem similarity_le_one (a b : List String) : similarity a b ≤ 1 := by
  unfold similarity scoreVal
  rw [div_le_one (scoreDen_pos _)]
  have hsq : ((simScore a b).1 : ℝ) ^ 2 ≤ ((simScore a b).2 : ℝ) := by
    have h := simScore_sq_le a b
    rw [pow_two]
    exact_mod_cast h
  have hle : ((simScore a b).1 : ℝ) ≤ Real.sqrt ((simScore a b).2 : ℝ) :=
    (Real.le_sqrt (Nat.cast_nonneg _) (Nat.cast_nonneg _)).mpr hsq
  exact le_trans hle (le_max_right _ _)

theorem similarity_zero_of (a b : List String)
    (h : a.toFinset = ∅ ∨ b.toFinset = ∅ ∨ a.toFinset ∩ b.toFinset = ∅) :
    similarity a b = 0 := by
  have hi : (simScore a b).1 = 0 := by
    rcases h with h | h | h
    · simp [simScore, h]
    · simp [simScore, h]
    · simp [simScore, h]
  unfold similarity scoreVal
  rw [hi]
  simp

theorem similarity_single (t : String) : similarity [t] [t] = 1 := by
  have h1 : simScore [t] [t] = (1, 1) := by
    simp [simScore]
  unfold similarity
  rw [h1]
  unfold scoreVal
  norm_num [Real.sqrt_one]

theorem simAccept_iff (a b : List String) :
    simAccept a b = true ↔ 3 / 5 ≤ similarity a b := by
  unfold simAccept similarity scoreVal
  rcases Nat.eq_zero_or_pos (simScore a b).1 with hi | hi
  · rw [hi]
    simp only [lt_self_iff_false, decide_eq_true_eq, Bool.and_eq_true, false_and, Nat.cast_zero,
      zero_div, false_iff, decide_False, Bool.false_and, Bool.false_eq_true]
    intro hcon
    norm_num at hcon
  · have hi2 : 1 ≤ (simScore a b).1 * (simScore a b).1 := Nat.one_le_iff_ne_zero.mpr (by positivity)
    have hmn : 1 ≤ (simScore a b).2 := le_trans hi2 (simScore_sq_le a b)
    have hs1 : (1 : ℝ) ≤ Real.sqrt ((simScore a b).2 : ℝ) := by
      rw [show (1 : ℝ) = Real.sqrt 1 from (Real.sqrt_one).symm]
      exact Real.sqrt_le_sqrt (by exact_mod_cast hmn)
    have hspos : (0 : ℝ) < Real.sqrt ((simScore a b).2 : ℝ) := lt_of_lt_of_le one_pos hs1
    rw [max_eq_right (le_trans (by norm_num) hs1)]
    have hstep : (3 : ℝ) / 5 ≤ ((simScore a b).1 : ℝ) / Real.sqrt ((simScore a b).2 : ℝ) ↔
        3 * Real.sqrt ((simScore a b).2 : ℝ) ≤ ((simScore a b).1 : ℝ) * 5 :=
      div_le_div_iff₀ (by norm_num) hspos
    rw [hstep]
    have hsq : Real.sqrt ((simScore a b).2 : ℝ) ^ 2 = ((simScore a b).2 : ℝ) :=
      Real.sq_sqrt (Nat.cast_nonneg _)
    constructor
    · intro h
      simp only [Bool.and_eq_true, decide_eq_true_eq] at h
      obtain ⟨_, h2⟩ := h
      have h2r : (9 : ℝ) * (simScore a b).2 ≤ 25 * ((simScore a b).1 : ℝ) ^ 2 := by
        exact_mod_cast h2
      have h9 : (3 : ℝ) * Real.sqrt ((simScore a b).2 : ℝ) =
          Real.sqrt (9 * ((simScore a b).2 : ℝ)) := by
        rw [show (9 : ℝ) = 3 ^ 2 by norm_num, Real.sqrt_mul (by positivity),
          Real.sqrt_sq (by norm_num)]
      have h25 : ((simScore a b).1 : ℝ) * 5 =
          Real.sqrt (25 * ((simScore a b).1 : ℝ) ^ 2) := by
        rw [show (25 : ℝ) = 5 ^ 2 by norm_num, Real.sqrt_mul (by positivity),
          Real.sqrt_sq (by norm_num), Real.sqrt_sq (Nat.cast_nonneg _)]
        ring
      rw [h9, h25]
      exact Real.sqrt_le_sqrt h2r
    · intro h
      have hnn : (0 : ℝ) ≤ 3 * Real.sqrt ((simScore a b).2 : ℝ) := by positivity
      have hsq2 : (3 * Real.sqrt ((simScore a b).2 : ℝ)) ^ 2 ≤
          (((simScore a b).1 : ℝ) * 5) ^ 2 := pow_le_pow_left₀ hnn h 2
      have hexp : (9 : ℝ) * ((simScore a b).2 : ℝ) ≤ 25 * ((simScore a b).1 : ℝ) ^ 2 := by
        have e1 : (3 * Real.sqrt ((simScore a b).2 : ℝ)) ^ 2 =
            9 * ((simScore a b).2 : ℝ) := by
          rw [mul_pow, hsq]
          norm_num
        have e2 : (((simScore a b).1 : ℝ) * 5) ^ 2 = 25 * ((simScore a b).1 : ℝ) ^ 2 := by
          ring
        rw [e1, e2] at hsq2
        exact hsq2
      simp only [Bool.and_eq_true, decide_eq_true_eq]
      exact ⟨hi, by exact_mod_cast hexp⟩

/-! ### `cleanName` structure lemmas -/

theorem within_trans {a b c : List Char} (h1 : Within a b) (h2 : Within b c) : Within a c := by
  obtain ⟨s, t, rfl⟩ := h1
  obtain ⟨u, v, rfl⟩ := h2
  exact ⟨u ++ s, t ++ v, by simp⟩

theorem within_cons_iff {m l : List Char} {c : Char} :
    Within m (c :: l) ↔ Starts m (c :: l) ∨ Within m l := by
  rw [← within_iff, ← starts_iff, ← within_iff,
    show withinList m (c :: l) = (startsList m (c :: l) || withinList m l) from rfl,
    Bool.or_eq_true]

theorem starts_cons_elim {m l : List Char} {c : Char} (h : Starts m (c :: l)) :
    m = [] ∨ ∃ m', m = c :: m' ∧ Starts m' l := by
  obtain ⟨t, ht⟩ := h
  cases m with
  | nil => exact Or.inl rfl
  | cons x m' =>
    rw [List.cons_append] at ht
    obtain ⟨rfl, h2⟩ := (List.cons.injEq c l x (m' ++ t)).mp ht
    exact Or.inr ⟨m', rfl, t, h2⟩

theorem sixRun_nil : ¬ SixRun [] := by
  rintro ⟨m, hlen, _, s, t, hst⟩
  have hm : m = [] := by
    obtain ⟨hs, hmt⟩ := List.append_eq_nil.mp (List.append_assoc s m t ▸ hst.symm)
    exact (List.append_eq_nil.mp hmt).1
  rw [hm] at hlen
  exact absurd hlen (by decide)

theorem sixRun_cons_not_digit {l : List Char} {c : Char} (hc : c.isDigit = false)
    (h : SixRun (c :: l)) : SixRun l := by
  obtain ⟨m, hlen, hdig, hw⟩ := h
  rcases within_cons_iff.mp hw with hs | hw'
  · rcases starts_cons_elim hs with rfl | ⟨m', rfl, _⟩
    · exact absurd hlen (by decide)
    · rw [List.all_cons, Bool.and_eq_true] at hdig
      rw [hdig.1] at hc
      exact absurd hc (by simp)
  · exact ⟨m, hlen, hdig, hw'⟩

theorem sixRun_cons_of {l : List Char} (c : Char) (h : SixRun l) : SixRun (c :: l) := by
  obtain ⟨m, h1, h2, h3⟩ := h
  exact ⟨m, h1, h2, within_cons c h3⟩

theorem sixRun_within {a b : List Char} (h : SixRun a) (hab : Within a b) : SixRun b := by
  obtain ⟨m, h1, h2, h3⟩ := h
  exact ⟨m, h1, h2, within_trans h3 hab⟩

theorem hasSixB_iff : ∀ {l : List Char}, hasSixB l = true ↔ SixRun l := by
  intro l
  induction l with
  | nil =>
    constructor
    · intro h
      exact absurd h (by decide)
    · intro h
      exact absurd h sixRun_nil
  | cons c cs ih =>
    rw [show hasSixB (c :: cs) =
      ((decide (6 ≤ (c :: cs).length) && ((c :: cs).take 6).all Char.isDigit) || hasSixB cs)
      from rfl]
    simp only [Bool.or_eq_true, Bool.and_eq_true, decide_eq_true_eq, ih]
    constructor
    · rintro (⟨hlen, hdig⟩ | hs)
      · refine ⟨(c :: cs).take 6, ?_, hdig, ⟨[], (c :: cs).drop 6, ?_⟩⟩
        · rw [List.length_take]
          omega
        · rw [List.nil_append, List.take_append_drop]
      · exact sixRun_cons_of c hs
    · rintro ⟨m, hlen, hdig, hw⟩
      rcases within_cons_iff.mp hw with hst | hw'
      · obtain ⟨t, ht⟩ := hst
        left
        constructor
        · rw [ht, List.length_append, hlen]
          omega
        · rw [ht, show (6 : ℕ) = m.length from hlen.symm, List.take_left m t]
          exact hdig
      · exact Or.inr ⟨m, hlen, hdig, hw'⟩

theorem dropWhile_head_false {p : Char → Bool} :
    ∀ {l : List Char} {c : Char} {t : List Char}, l.dropWhile p = c :: t → p c = false := by
  intro l
  induction l with
  | nil =>
    intro c t h
    exact absurd h (by simp [List.dropWhile])
  | cons x xs ih =>
    intro c t h
    cases hx : p x
    · rw [List.dropWhile_cons_of_neg (by simp [hx])] at h
      obtain ⟨rfl, _⟩ := (List.cons.injEq x xs c t).mp h
      exact hx
    · rw [List.dropWhile_cons_of_pos hx] at h
      exact ih h

theorem takeWhile_append_of_all {p : Char → Bool} :
    ∀ {l : List Char} (y : List Char), l.all p = true →
      (l ++ y).takeWhile p = l ++ y.takeWhile p := by
  intro l
  induction l with
  | nil =>
    intro y _
    rfl
  | cons c cs ih =>
    intro y h
    rw [List.all_cons, Bool.and_eq_true] at h
    rw [List.cons_append, List.takeWhile_cons_of_pos h.1, ih y h.2, List.cons_append]

theorem dropWhile_append_of_all {p : Char → Bool} :
    ∀ {l : List Char} (y : List Char), l.all p = true →
      (l ++ y).dropWhile p = y.dropWhile p := by
  intro l
  induction l with
  | nil =>
    intro y _
    rfl
  | cons c cs ih =>
    intro y h
    rw [List.all_cons, Bool.and_eq_true] at h
    rw [List.cons_append, List.dropWhile_cons_of_pos h.1, ih y h.2]

theorem within_append_left {m X : List Char} (pre : List Char) (h : Within m X) :
    Within m (pre ++ X) := by
  obtain ⟨s, t, rfl⟩ := h
  exact ⟨pre ++ s, t, by simp⟩

theorem within_append_right {m X : List Char} (post : List Char) (h : Within m X) :
    Within m (X ++ post) := by
  obtain ⟨s, t, rfl⟩ := h
  exact ⟨s, t ++ post, by simp⟩

theorem starts_append_not_mem : ∀ {xs m : List Char} {w : Char} {ys : List Char},
    Starts m (xs ++ w :: ys) → w ∉ m → Starts m xs := by
  intro xs
  induction xs with
  | nil =>
    intro m w ys h hw
    rcases starts_cons_elim h with rfl | ⟨m', rfl, _⟩
    · exact ⟨[], rfl⟩
    · exact absurd (List.mem_cons_self w m') hw
  | cons x xs' ih =>
    intro m w ys h hw
    rw [List.cons_append] at h
    rcases starts_cons_elim h with rfl | ⟨m', rfl, hs⟩
    · exact ⟨x :: xs', rfl⟩
    · have hw' : w ∉ m' := fun hh => hw (List.mem_cons_of_mem x hh)
      obtain ⟨t, ht⟩ := ih hs hw'
      exact ⟨t, by rw [List.cons_append, ht]⟩

theorem within_append_not_mem : ∀ {xs m : List Char} {w : Char} {ys : List Char},
    Within m (xs ++ w :: ys) → w ∉ m → Within m xs ∨ Within m ys := by
  intro xs
  induction xs with
  | nil =>
    intro m w ys h hw
    rw [List.nil_append] at h
    rcases within_cons_iff.mp h with hs | h'
    · rcases starts_cons_elim hs with rfl | ⟨m', rfl, _⟩
      · exact Or.inl ⟨[], [], rfl⟩
      · exact absurd (List.mem_cons_self w m') hw
    · exact Or.inr h'
  | cons x xs' ih =>
    intro m w ys h hw
    rw [List.cons_append] at h
    rcases within_cons_iff.mp h with hs | h'
    · rcases starts_cons_elim hs with rfl | ⟨m', rfl, hs'⟩
      · exact Or.inl ⟨[], x :: xs', rfl⟩
      · have hw' : w ∉ m' := fun hh => hw (List.mem_cons_of_mem x hh)
        obtain ⟨t, ht⟩ := starts_append_not_mem hs' hw'
        exact Or.inl ⟨[], t, by rw [List.nil_append, List.cons_append, ht]⟩
    · rcases ih h' hw with h1 | h1
      · exact Or.inl (within_cons x h1)
      · exact Or.inr h1

theorem wordRuns_append_run {run Y : List Char} (hne : run ≠ [])
    (hall : run.all wordChar = true)
    (hY : Y = [] ∨ ∃ w Y', Y = w :: Y' ∧ wordChar w = false) :
    wordRuns (run ++ Y) = run :: wordRuns Y := by
  cases run with
  | nil => exact absurd rfl hne
  | cons r run' =>
    rw [List.all_cons, Bool.and_eq_true] at hall
    rw [List.cons_append, wordRuns_cons, if_pos hall.1]
    have htk : (run' ++ Y).takeWhile wordChar = run' ++ Y.takeWhile wordChar :=
      takeWhile_append_of_all Y hall.2
    have htk2 : Y.takeWhile wordChar = [] := by
      rcases hY with rfl | ⟨w, Y', rfl, hw⟩
      · rfl
      · rw [List.takeWhile_cons_of_neg (by simp [hw])]
    have hdr : (run' ++ Y).dropWhile wordChar = Y := by
      rw [dropWhile_append_of_all Y hall.2]
      rcases hY with rfl | ⟨w, Y', rfl, hw⟩
      · rfl
      · rw [List.dropWhile_cons_of_neg (by simp [hw])]
    rw [List.takeWhile_cons_of_pos hall.1, htk, htk2, List.append_nil, hdr]

theorem sixRun_runs : ∀ n (l : List Char), l.length ≤ n → SixRun l →
    ∃ r ∈ wordRuns l, SixRun r := by
  intro n
  induction n with
  | zero =>
    intro l h hs
    rw [List.eq_nil_of_length_eq_zero (Nat.le_zero.mp h)] at hs
    exact absurd hs sixRun_nil
  | succ n ih =>
    intro l hlen hs
    cases l with
    | nil => exact absurd hs sixRun_nil
    | cons c cs =>
      simp only [List.length_cons, Nat.add_le_add_iff_right] at hlen
      cases hw : wordChar c
      · rw [wordRuns_cons, if_neg (by simp [hw])]
        have hcd : c.isDigit = false := by
          cases hd : c.isDigit
          · rfl
          · rw [wordChar_of_isDigit hd] at hw
            exact absurd hw (by simp)
        exact ih cs hlen (sixRun_cons_not_digit hcd hs)
      · rw [wordRuns_cons, if_pos hw]
        have hdecomp : c :: cs = (c :: cs).takeWhile wordChar ++ cs.dropWhile wordChar := by
          have h0 := (List.takeWhile_append_dropWhile wordChar (c :: cs)).symm
          rwa [List.dropWhile_cons_of_pos hw] at h0
        obtain ⟨m, hm6, hmd, hmw⟩ := hs
        rw [hdecomp] at hmw
        have hsplit : Within m ((c :: cs).takeWhile wordChar) ∨
            Within m (cs.dropWhile wordChar) := by
          cases hr : cs.dropWhile wordChar with
          | nil =>
            rw [hr, List.append_nil] at hmw
            exact Or.inl hmw
          | cons w rest' =>
            have hww : wordChar w = false := dropWhile_head_false hr
            have hwm : w ∉ m := by
              intro hmem
              have hdw := (List.all_eq_true.mp hmd) w hmem
              rw [wordChar_of_isDigit hdw] at hww
              exact absurd hww (by simp)
            rw [hr] at hmw
            rcases within_append_not_mem hmw hwm with h | h
            · exact Or.inl h
            · exact Or.inr (within_cons w h)
        rcases hsplit with h | h
        · exact ⟨(c :: cs).takeWhile wordChar, by simp, ⟨m, hm6, hmd, h⟩⟩
        · have hrl : (cs.dropWhile wordChar).length ≤ n :=
            le_trans (dropWhile_len wordChar cs) hlen
          obtain ⟨r, hr1, hr2⟩ := ih (cs.dropWhile wordChar) hrl ⟨m, hm6, hmd, h⟩
          exact ⟨r, by simp [hr1], hr2⟩

theorem runs_replRuns (p : List Char → Bool) : ∀ n (l : List Char), l.length ≤ n →
    wordRuns (replRuns p l) = (wordRuns l).filter (fun r => !p r) := by
  intro n
  induction n with
  | zero =>
    intro l h
    rw [List.eq_nil_of_length_eq_zero (Nat.le_zero.mp h)]
    rfl
  | succ n ih =>
    intro l hlen
    cases l with
    | nil => rfl
    | cons c cs =>
      simp only [List.length_cons, Nat.add_le_add_iff_right] at hlen
      cases hw : wordChar c
      · rw [replRuns_cons, if_neg (by simp [hw]), wordRuns_cons, if_neg (by simp [hw]),
          wordRuns_cons, if_neg (by simp [hw])]
        exact ih cs hlen
      · rw [replRuns_cons, if_pos hw, wordRuns_cons, if_pos hw]
        have hrestlen : (cs.dropWhile wordChar).length ≤ n :=
          le_trans (dropWhile_len wordChar cs) hlen
        have hrunall : ((c :: cs).takeWhile wordChar).all wordChar = true :=
          List.all_takeWhile
        have hrunne : (c :: cs).takeWhile wordChar ≠ [] := by
          rw [List.takeWhile_cons_of_pos hw]
          simp
        have hYshape : replRuns p (cs.dropWhile wordChar) = [] ∨
            ∃ w Y', replRuns p (cs.dropWhile wordChar) = w :: Y' ∧ wordChar w = false := by
          cases hr : cs.dropWhile wordChar with
          | nil => exact Or.inl rfl
          | cons w rest' =>
            have hww : wordChar w = false := dropWhile_head_false hr
            rw [replRuns_cons, if_neg (by simp [hww])]
            exact Or.inr ⟨w, _, rfl, hww⟩
        by_cases hp : p ((c :: cs).takeWhile wordChar) = true
        · rw [if_pos hp, List.singleton_append, wordRuns_cons, if_neg (by decide),
            List.filter_cons, if_neg (by simp [hp]), ih (cs.dropWhile wordChar) hrestlen]
        · have hp2 : p ((c :: cs).takeWhile wordChar) = false := by
            cases hx : p ((c :: cs).takeWhile wordChar)
            · rfl
            · exact absurd hx hp
          rw [if_neg (by simp [hp2]), wordRuns_append_run hrunne hrunall hYshape,
            List.filter_cons, if_pos (by simp [hp2]), ih (cs.dropWhile wordChar) hrestlen]

theorem starts_digits_collapse : ∀ {cs m : List Char}, Starts m (collapseWS cs) →
    m.all Char.isDigit = true → Starts m cs := by
  intro cs
  induction cs with
  | nil =>
    intro m h _
    exact h
  | cons d cs' ih =>
    intro m h hd
    rw [collapseWS_cons] at h
    cases hws : d.isWhitespace
    · rw [if_neg (by simp [hws])] at h
      rcases starts_cons_elim h with rfl | ⟨m', rfl, hs⟩
      · exact ⟨d :: cs', rfl⟩
      · rw [List.all_cons, Bool.and_eq_true] at hd
        obtain ⟨t, ht⟩ := ih hs hd.2
        exact ⟨t, by rw [List.cons_append, ht]⟩
    · rw [if_pos hws] at h
      rcases starts_cons_elim h with rfl | ⟨m', rfl, _⟩
      · exact ⟨d :: cs', rfl⟩
      · rw [List.all_cons, Bool.and_eq_true] at hd
        exact absurd hd.1 (by decide)

theorem sixRun_collapse : ∀ n (cs : List Char), cs.length ≤ n →
    SixRun (collapseWS cs) → SixRun cs := by
  intro n
  induction n with
  | zero =>
    intro cs h hs
    rw [List.eq_nil_of_length_eq_zero (Nat.le_zero.mp h)] at hs ⊢
    exact absurd hs sixRun_nil
  | succ n ih =>
    intro cs hlen hs
    cases cs with
    | nil => exact absurd hs sixRun_nil
    | cons d cs' =>
      simp only [List.length_cons, Nat.add_le_add_iff_right] at hlen
      rw [collapseWS_cons] at hs
      cases hws : d.isWhitespace
      · rw [if_neg (by simp [hws])] at hs
        obtain ⟨m, hm6, hmd, hmw⟩ := hs
        rcases within_cons_iff.mp hmw with hst | hw'
        · rcases starts_cons_elim hst with rfl | ⟨m', rfl, hs'⟩
          · exact absurd hm6 (by decide)
          · rw [List.all_cons, Bool.and_eq_true] at hmd
            obtain ⟨t, ht⟩ := starts_digits_collapse hs' hmd.2
            refine ⟨d :: m', hm6, ?_, ⟨[], t, ?_⟩⟩
            · rw [List.all_cons, Bool.and_eq_true]
              exact ⟨hmd.1, hmd.2⟩
            · rw [List.nil_append, List.cons_append, ht]
        · exact sixRun_cons_of d (ih cs' hlen ⟨m, hm6, hmd, hw'⟩)
      · rw [if_pos hws] at hs
        have hs' : SixRun (collapseWS (cs'.dropWhile Char.isWhitespace)) :=
          sixRun_cons_not_digit (by decide) hs
        have hdp : SixRun (cs'.dropWhile Char.isWhitespace) :=
          ih _ (le_trans (dropWhile_len _ cs') hlen) hs'
        obtain ⟨m, h1, h2, h3⟩ := hdp
        refine sixRun_cons_of d ⟨m, h1, h2, ?_⟩
        have hdc : cs' = cs'.takeWhile Char.isWhitespace ++ cs'.dropWhile Char.isWhitespace :=
          (List.takeWhile_append_dropWhile _ _).symm
        rw [hdc]
        exact within_append_left _ h3

theorem splitClose_decomp : ∀ {cs rest : List Char}, splitCloseParen cs = some rest →
    ∃ pre, cs = pre ++ ')' :: rest := by
  intro cs
  induction cs with
  | nil =>
    intro rest h
    exact absurd h (by simp [splitCloseParen])
  | cons c cs' ih =>
    intro rest h
    simp only [splitCloseParen] at h
    by_cases hc : c = ')'
    · rw [if_pos hc] at h
      obtain rfl := Option.some.inj h
      subst hc
      exact ⟨[], rfl⟩
    · rw [if_neg hc] at h
      obtain ⟨pre, hpre⟩ := ih h
      exact ⟨c :: pre, by rw [List.cons_append, hpre]⟩

theorem starts_digits_paren : ∀ {cs m : List Char}, Starts m (stripParens cs) →
    m.all Char.isDigit = true → Starts m cs := by
  intro cs
  induction cs with
  | nil =>
    intro m h _
    exact h
  | cons c cs' ih =>
    intro m h hd
    cases hc : (c == '(')
    · rw [stripParens_cons_other cs' hc] at h
      rcases starts_cons_elim h with rfl | ⟨m', rfl, hs⟩
      · exact ⟨c :: cs', rfl⟩
      · rw [List.all_cons, Bool.and_eq_true] at hd
        obtain ⟨t, ht⟩ := ih hs hd.2
        exact ⟨t, by rw [List.cons_append, ht]⟩
    · have hceq : c = '(' := by simpa using hc
      subst hceq
      cases hsp : splitCloseParen cs' with
      | none =>
        rw [stripParens_cons_open_none hsp] at h
        rcases starts_cons_elim h with rfl | ⟨m', rfl, _⟩
        · exact ⟨'(' :: cs', rfl⟩
        · rw [List.all_cons, Bool.and_eq_true] at hd
          exact absurd hd.1 (by decide)
      | some rest =>
        rw [stripParens_cons_open_some hsp] at h
        rcases starts_cons_elim h with rfl | ⟨m', rfl, _⟩
        · exact ⟨'(' :: cs', rfl⟩
        · rw [List.all_cons, Bool.and_eq_true] at hd
          exact absurd hd.1 (by decide)

theorem sixRun_paren : ∀ n (cs : List Char), cs.length ≤ n →
    SixRun (stripParens cs) → SixRun cs := by
  intro n
  induction n with
  | zero =>
    intro cs h hs
    rw [List.eq_nil_of_length_eq_zero (Nat.le_zero.mp h)] at hs ⊢
    exact absurd hs sixRun_nil
  | succ n ih =>
    intro cs hlen hs
    cases cs with
    | nil => exact absurd hs sixRun_nil
    | cons c cs' =>
      simp only [List.length_cons, Nat.add_le_add_iff_right] at hlen
      cases hc : (c == '(')
      · rw [stripParens_cons_other cs' hc] at hs
        obtain ⟨m, hm6, hmd, hmw⟩ := hs
        rcases within_cons_iff.mp hmw with hst | hw'
        · rcases starts_cons_elim hst with rfl | ⟨m', rfl, hs'⟩
          · exact absurd hm6 (by decide)
          · rw [List.all_cons, Bool.and_eq_true] at hmd
            obtain ⟨t, ht⟩ := starts_digits_paren hs' hmd.2
            refine ⟨c :: m', hm6, ?_, ⟨[], t, ?_⟩⟩
            · rw [List.all_cons, Bool.and_eq_true]
              exact ⟨hmd.1, hmd.2⟩
            · rw [List.nil_append, List.cons_append, ht]
        · exact sixRun_cons_of c (ih cs' hlen ⟨m, hm6, hmd, hw'⟩)
      · have hceq : c = '(' := by simpa using hc
        subst hceq
        cases hsp : splitCloseParen cs' with
        | none =>
          rw [stripParens_cons_open_none hsp] at hs
          exact sixRun_cons_of _ (ih cs' hlen (sixRun_cons_not_digit (by decide) hs))
        | some rest =>
          rw [stripParens_cons_open_some hsp] at hs
          have hrl : rest.length ≤ n := le_trans (Nat.le_of_lt (splitClose_len hsp)) hlen
          have hr : SixRun rest := ih rest hrl (sixRun_cons_not_digit (by decide) hs)
          obtain ⟨pre, hpre⟩ := splitClose_decomp hsp
          obtain ⟨m, h1, h2, h3⟩ := hr
          refine sixRun_cons_of '(' ⟨m, h1, h2, ?_⟩
          rw [hpre]
          exact within_append_left pre (within_cons ')' h3)

theorem map_digits_punct : ∀ {m₀ : List Char},
    (m₀.map punctPass).all Char.isDigit = true → m₀.map punctPass = m₀ := by
  intro m₀
  induction m₀ with
  | nil =>
    intro _
    rfl
  | cons c cs ih =>
    intro h
    rw [List.map_cons, List.all_cons, Bool.and_eq_true] at h
    obtain ⟨hc, hp⟩ := isDigit_of_punctPass h.1
    rw [List.map_cons, hp, ih h.2]

theorem sixRun_punct {l : List Char} (h : SixRun (punctStage l)) : SixRun l := by
  obtain ⟨m, h1, h2, h3⟩ := h
  obtain ⟨m₀, hw, hmap⟩ := map_within h3
  have hid : m₀.map punctPass = m₀ := map_digits_punct (by rw [hmap]; exact h2)
  have hm : m₀ = m := by rw [← hmap, hid]
  subst hm
  exact ⟨m₀, h1, h2, hw⟩

theorem sixRun_trim {l : List Char} (h : SixRun (trimWS l)) : SixRun l := by
  obtain ⟨m, h1, h2, h3⟩ := h
  refine ⟨m, h1, h2, ?_⟩
  have hA : l = l.takeWhile Char.isWhitespace ++ l.dropWhile Char.isWhitespace :=
    (List.takeWhile_append_dropWhile _ _).symm
  have hB : (l.dropWhile Char.isWhitespace).reverse =
      (l.dropWhile Char.isWhitespace).reverse.takeWhile Char.isWhitespace ++
        (l.dropWhile Char.isWhitespace).reverse.dropWhile Char.isWhitespace :=
    (List.takeWhile_append_dropWhile _ _).symm
  have hC : l.dropWhile Char.isWhitespace =
      trimWS l ++
        ((l.dropWhile Char.isWhitespace).reverse.takeWhile Char.isWhitespace).reverse := by
    unfold trimWS
    calc l.dropWhile Char.isWhitespace
        = (l.dropWhile Char.isWhitespace).reverse.reverse := by rw [List.reverse_reverse]
      _ = ((l.dropWhile Char.isWhitespace).reverse.takeWhile Char.isWhitespace ++
            (l.dropWhile Char.isWhitespace).reverse.dropWhile Char.isWhitespace).reverse := by
            rw [← hB]
      _ = _ := by rw [List.reverse_append]
  rw [hA, hC]
  exact within_append_left _ (within_append_right _ h3)

theorem collapse_mem : ∀ n (l : List Char), l.length ≤ n →
    ∀ c ∈ collapseWS l, c = ' ' ∨ (c ∈ l ∧ c.isWhitespace = false) := by
  intro n
  induction n with
  | zero =>
    intro l h c hc
    rw [List.eq_nil_of_length_eq_zero (Nat.le_zero.mp h)] at hc
    exact absurd hc (by simp [show collapseWS [] = [] from rfl])
  | succ n ih =>
    intro l hlen c hc
    cases l with
    | nil => exact absurd hc (by simp [show collapseWS [] = [] from rfl])
    | cons d l' =>
      simp only [List.length_cons, Nat.add_le_add_iff_right] at hlen
      rw [collapseWS_cons] at hc
      cases hws : d.isWhitespace
      · rw [if_neg (by simp [hws])] at hc
        rcases List.mem_cons.mp hc with rfl | hc'
        · exact Or.inr ⟨List.mem_cons_self _ _, hws⟩
        · rcases ih l' hlen c hc' with h | ⟨h1, h2⟩
          · exact Or.inl h
          · exact Or.inr ⟨List.mem_cons_of_mem d h1, h2⟩
      · rw [if_pos hws] at hc
        rcases List.mem_cons.mp hc with rfl | hc'
        · exact Or.inl rfl
        · rcases ih _ (le_trans (dropWhile_len _ l') hlen) c hc' with h | ⟨h1, h2⟩
          · exact Or.inl h
          · exact Or.inr ⟨List.mem_cons_of_mem d ((List.dropWhile_suffix _).subset h1), h2⟩

theorem trim_subset {l : List Char} {c : Char} (h : c ∈ trimWS l) : c ∈ l := by
  unfold trimWS at h
  rw [List.mem_reverse] at h
  have h1 := (List.dropWhile_suffix Char.isWhitespace).subset h
  rw [List.mem_reverse] at h1
  exact (List.dropWhile_suffix Char.isWhitespace).subset h1

theorem punct_mem {l : List Char} {c : Char} (h : c ∈ punctStage l) :
    c.isAlpha = true ∨ c.isDigit = true ∨ c.isWhitespace = true := by
  unfold punctStage at h
  obtain ⟨x, _, rfl⟩ := List.mem_map.mp h
  unfold punctPass
  rcases hb : (x.isAlpha || x.isDigit || x.isWhitespace : Bool) with _ | _
  · rw [if_neg (by simp [hb])]
    exact Or.inr (Or.inr (by decide))
  · rw [if_pos (by simp [hb])]
    simp only [Bool.or_eq_true] at hb
    rcases hb with (h | h) | h
    · exact Or.inl h
    · exact Or.inr (Or.inl h)
    · exact Or.inr (Or.inr h)

/-- Core of the amended C9: on inputs whose long digit runs are
boundary-delimited, the cleaned name has no six-digit run. -/
theorem cleanNameL_noSix {l : List Char} (hg : digitGuarded l = true) :
    hasSixB (cleanNameL l) = false := by
  cases hx : hasSixB (cleanNameL l)
  · rfl
  · exfalso
    have hs0 : SixRun (cleanNameL l) := hasSixB_iff.mp hx
    unfold cleanNameL at hs0
    have hs1 := sixRun_trim hs0
    have hs2 := sixRun_collapse _ _ le_rfl hs1
    have hs3 := sixRun_punct hs2
    have hs4 := sixRun_paren _ _ le_rfl hs3
    obtain ⟨r, hrmem, hrsix⟩ := sixRun_runs _ _ le_rfl hs4
    rw [runs_replRuns longDigitRun _ _ le_rfl, runs_replRuns gdRun _ _ le_rfl] at hrmem
    obtain ⟨hrmem1, hlong⟩ := List.mem_filter.mp hrmem
    obtain ⟨hrmem0, _⟩ := List.mem_filter.mp hrmem1
    have hguard := (List.all_eq_true.mp hg) r hrmem0
    rw [hasSixB_iff.mpr hrsix] at hguard
    simp only [Bool.not_true, Bool.false_or] at hguard
    rw [hguard] at hlong
    exact absurd hlong (by simp)

/-- The cleaned name consists of letters, digits and single spaces only. -/
theorem cleanName_chars (s : String) : ∀ c ∈ (cleanName s).data,
    c.isAlpha = true ∨ c.isDigit = true ∨ c = ' ' := by
  intro c hc
  have hc0 : c ∈ cleanNameL s.data := by
    exact hc
  unfold cleanNameL at hc0
  have hc1 := trim_subset hc0
  rcases collapse_mem _ _ le_rfl c hc1 with h | ⟨h1, h2⟩
  · exact Or.inr (Or.inr h)
  · rcases punct_mem h1 with h | h | h
    · exact Or.inl h
    · exact Or.inr (Or.inl h)
    · rw [h] at h2
      exact absurd h2 (by simp)

/-! ### Strategy-loop lemmas -/

theorem tokenLoop_trace (net : Network) (accept : String → Bool) :
    ∀ (cands : List String) (u : String),
      u ∈ (tokenLoop net accept cands).tried.map Attempt.cand ↔
        u ∈ (tokenLoop net accept cands).fetched ∧ (net.page u).isSome = true := by
  intro cands
  induction cands with
  | nil =>
    intro u
    simp [tokenLoop]
  | cons c rest ih =>
    intro u
    simp only [tokenLoop]
    cases hp : net.page c with
    | none =>
      simp only []
      constructor
      · intro h
        obtain ⟨h1, h2⟩ := (ih u).mp h
        exact ⟨List.mem_cons_of_mem c h1, h2⟩
      · rintro ⟨h1, h2⟩
        rcases List.mem_cons.mp h1 with rfl | h1'
        · rw [hp] at h2
          exact absurd h2 (by simp)
        · exact (ih u).mpr ⟨h1', h2⟩
    | some pr =>
      obtain ⟨ok, html⟩ := pr
      simp only []
      cases ha : accept html
      · simp only [Bool.false_eq_true, if_false, List.map_cons, Attempt.cand]
        constructor
        · intro h
          rcases List.mem_cons.mp h with rfl | h'
          · exact ⟨List.mem_cons_self _ _, by rw [hp]; rfl⟩
          · obtain ⟨h1, h2⟩ := (ih u).mp h'
            exact ⟨List.mem_cons_of_mem c h1, h2⟩
        · rintro ⟨h1, h2⟩
          rcases List.mem_cons.mp h1 with rfl | h1'
          · exact List.mem_cons_self _ _
          · exact List.mem_cons_of_mem _ ((ih u).mpr ⟨h1', h2⟩)
      · simp only [if_true]
        cases he : extractImage c html
        · simp only [List.map_cons, Attempt.cand]
          constructor
          · intro h
            rcases List.mem_cons.mp h with rfl | h'
            · exact ⟨List.mem_cons_self _ _, by rw [hp]; rfl⟩
            · obtain ⟨h1, h2⟩ := (ih u).mp h'
              exact ⟨List.mem_cons_of_mem c h1, h2⟩
          · rintro ⟨h1, h2⟩
            rcases List.mem_cons.mp h1 with rfl | h1'
            · exact List.mem_cons_self _ _
            · exact List.mem_cons_of_mem _ ((ih u).mpr ⟨h1', h2⟩)
        · simp only [List.map_cons, List.map_nil, Attempt.cand]
          constructor
          · intro h
            rcases List.mem_cons.mp h with rfl | h'
            · exact ⟨List.mem_cons_self _ _, by rw [hp]; rfl⟩
            · exact absurd h' (by simp)
          · rintro ⟨h1, h2⟩
            rcases List.mem_cons.mp h1 with rfl | h1'
            · exact List.mem_cons_self _ _
            · exact absurd h1' (by simp)

theorem nameLoop_trace (net : Network) (qa : List String) :
    ∀ (cands : List String) (u : String),
      u ∈ (nameLoop net qa cands).tried.map Attempt.cand ↔
        u ∈ (nameLoop net qa cands).fetched ∧ (net.page u).isSome = true := by
  intro cands
  induction cands with
  | nil =>
    intro u
    simp [nameLoop]
  | cons c rest ih =>
    intro u
    simp only [nameLoop]
    cases hp : net.page c with
    | none =>
      simp only []
      constructor
      · intro h
        obtain ⟨h1, h2⟩ := (ih u).mp h
        exact ⟨List.mem_cons_of_mem c h1, h2⟩
      · rintro ⟨h1, h2⟩
        rcases List.mem_cons.mp h1 with rfl | h1'
        · rw [hp] at h2
          exact absurd h2 (by simp)
        · exact (ih u).mpr ⟨h1', h2⟩
    | some pr =>
      obtain ⟨ok, html⟩ := pr
      simp only []
      cases ha : simAccept qa (tokens (extractTitle html))
      · simp only [Bool.false_eq_true, if_false, List.map_cons, Attempt.cand]
        constructor
        · intro h
          rcases List.mem_cons.mp h with rfl | h'
          · exact ⟨List.mem_cons_self _ _, by rw [hp]; rfl⟩
          · obtain ⟨h1, h2⟩ := (ih u).mp h'
            exact ⟨List.mem_cons_of_mem c h1, h2⟩
        · rintro ⟨h1, h2⟩
          rcases List.mem_cons.mp h1 with rfl | h1'
          · exact List.mem_cons_self _ _
          · exact List.mem_cons_of_mem _ ((ih u).mpr ⟨h1', h2⟩)
      · simp only [if_true]
        cases he : extractImage c html
        · simp only [List.map_cons, Attempt.cand]
          constructor
          · intro h
            rcases List.mem_cons.mp h with rfl | h'
            · exact ⟨List.mem_cons_self _ _, by rw [hp]; rfl⟩
            · obtain ⟨h1, h2⟩ := (ih u).mp h'
              exact ⟨List.mem_cons_of_mem c h1, h2⟩
          · rintro ⟨h1, h2⟩
            rcases List.mem_cons.mp h1 with rfl | h1'
            · exact List.mem_cons_self _ _
            · exact List.mem_cons_of_mem _ ((ih u).mpr ⟨h1', h2⟩)
        · simp only [List.map_cons, List.map_nil, Attempt.cand]
          constructor
          · intro h
            rcases List.mem_cons.mp h with rfl | h'
            · exact ⟨List.mem_cons_self _ _, by rw [hp]; rfl⟩
            · exact absurd h' (by simp)
          · rintro ⟨h1, h2⟩
            rcases List.mem_cons.mp h1 with rfl | h1'
            · exact List.mem_cons_self _ _
            · exact absurd h1' (by simp)

/-- The name loop returns exactly the first qualifying candidate, and its
payload records that candidate's title score and extracted image. -/
theorem nameLoop_spec (net : Network) (qa : List String) :
    ∀ cands : List String,
      ((nameLoop net qa cands).result.map (fun p => p.productUrl) =
        cands.find? (qualB net qa)) ∧
      (∀ p, (nameLoop net qa cands).result = some p →
        ∃ ok html, net.page p.productUrl = some (ok, html) ∧
          p.score = simScore qa (tokens (extractTitle html)) ∧
          simAccept qa (tokens (extractTitle html)) = true ∧
          extractImage p.productUrl html = some p.imageUrl) := by
  intro cands
  induction cands with
  | nil =>
    constructor
    · simp [nameLoop]
    · intro p hp
      exact absurd hp (by simp [nameLoop])
  | cons c rest ih =>
    simp only [nameLoop]
    cases hp : net.page c with
    | none =>
      have hqf : qualB net qa c = false := by simp [qualB, hp]
      rw [List.find?_cons_of_neg _ (by simp [hqf])]
      exact ih
    | some pr =>
      obtain ⟨ok, html⟩ := pr
      simp only []
      cases ha : simAccept qa (tokens (extractTitle html))
      · have hqf : qualB net qa c = false := by simp [qualB, hp, ha]
        rw [List.find?_cons_of_neg _ (by simp [hqf]), if_neg (by simp [ha])]
        exact ih
      · rw [if_pos rfl]
        cases he : extractImage c html with
        | none =>
          have hqf : qualB net qa c = false := by simp [qualB, hp, ha, he]
          rw [List.find?_cons_of_neg _ (by simp [hqf])]
          exact ih
        | some img =>
          have hqt : qualB net qa c = true := by simp [qualB, hp, ha, he]
          rw [List.find?_cons_of_pos _ hqt]
          constructor
          · rfl
          · intro p hpe
            obtain rfl := Option.some.inj hpe
            exact ⟨ok, html, hp, rfl, ha, he⟩

/-! ### Dispatcher stage lemmas -/

theorem dispatchName_trace (net : Network) (debug : Bool) (site nm : String)
    (tried : List (List Attempt)) (tr : Trace) :
    (dispatchName net debug site nm tried tr).2 =
      if nm ≠ "" then
        tr.app (stratTrace .byName (searchQuery site (cleanName nm)) (findByName net site nm))
      else tr := by
  unfold dispatchName
  by_cases h : nm ≠ ""
  · rw [if_pos h, if_pos h]
    dsimp only
    cases hres : (findByName net site nm).result <;> rfl
  · rw [if_neg h, if_neg h]

theorem dispatchEan_trace (net : Network) (debug : Bool) (site e nm : String)
    (tried : List (List Attempt)) (tr : Trace) :
    (dispatchEan net debug site e nm tried tr).2 =
      if e ≠ "" && validEan e then
        (let r := findByToken net site e (fun html => strContains html e)
         let tr' := tr.app (stratTrace .ean (searchQuery site e) r)
         if r.result.isSome then tr'
         else (dispatchName net debug site nm (tried ++ [r.tried]) tr').2)
      else (dispatchName net debug site nm tried tr).2 := by
  unfold dispatchEan
  by_cases h : (e ≠ "" && validEan e) = true
  · rw [if_pos h, if_pos h]
    dsimp only
    cases hr : (findByToken net site e (fun html => strContains html e)).result
    · simp only [hr, Option.isSome_none, Bool.false_eq_true, if_false]
    · simp only [hr, Option.isSome_some, if_true]
  · rw [if_neg h, if_neg h]

theorem dispatchSub_trace (net : Network) (debug : Bool) (site subcode e nm : String) :
    (dispatchSub net debug site subcode e nm).2 =
      if subcode ≠ "" then
        (let r := findByToken net site subcode (fun html => containsProductNumber html subcode)
         let tr := stratTrace .subcode (searchQuery site subcode) r
         if r.result.isSome then tr
         else (dispatchEan net debug site e nm [r.tried] tr).2)
      else (dispatchEan net debug site e nm [] ⟨[], [], []⟩).2 := by
  unfold dispatchSub
  by_cases h : subcode ≠ ""
  · rw [if_pos h, if_pos h]
    dsimp only
    cases hr :
        (findByToken net site subcode (fun html => containsProductNumber html subcode)).result
    · simp only [hr, Option.isSome_none, Bool.false_eq_true, if_false]
    · simp only [hr, Option.isSome_some, if_true]
  · rw [if_neg h, if_neg h]

theorem dispatchEan_skip (net : Network) (debug : Bool) (site e nm : String)
    (tried : List (List Attempt)) (tr : Trace) (h : (e ≠ "" && validEan e) = false) :
    dispatchEan net debug site e nm tried tr = dispatchName net debug site nm tried tr := by
  unfold dispatchEan
  rw [if_neg (fun hc => absurd (hc.symm.trans h) (by simp))]

theorem dispatchSub_ean_irrel (net : Network) (debug : Bool) (site subcode e₁ e₂ nm : String)
    (h1 : (e₁ ≠ "" && validEan e₁) = false) (h2 : (e₂ ≠ "" && validEan e₂) = false) :
    dispatchSub net debug site subcode e₁ nm = dispatchSub net debug site subcode e₂ nm := by
  unfold dispatchSub
  by_cases hs : subcode ≠ ""
  · rw [if_pos hs, if_pos hs]
    dsimp only
    cases hr :
        (findByToken net site subcode (fun html => containsProductNumber html subcode)).result
    · rw [dispatchEan_skip _ _ _ _ _ _ _ h1, dispatchEan_skip _ _ _ _ _ _ _ h2]
    · rfl
  · rw [if_neg hs, if_neg hs, dispatchEan_skip _ _ _ _ _ _ _ h1,
      dispatchEan_skip _ _ _ _ _ _ _ h2]

theorem wellTagged_empty : wellTagged ⟨[], [], []⟩ := by
  constructor <;> intro p hp <;> exact absurd hp (by simp)

theorem wellTagged_strat (s : Strat) (q : String) (o : StratOut) :
    wellTagged (stratTrace s q o) := by
  constructor
  · intro p hp
    obtain ⟨u, _, rfl⟩ := List.mem_map.mp hp
    simp [stratTrace]
  · intro p hp
    simp only [stratTrace, List.mem_singleton] at hp
    subst hp
    simp [stratTrace]

theorem wellTagged_app {t₁ t₂ : Trace} (h₁ : wellTagged t₁) (h₂ : wellTagged t₂) :
    wellTagged (t₁.app t₂) := by
  constructor
  · intro p hp
    rcases List.mem_append.mp hp with h | h
    · exact List.mem_append.mpr (Or.inl (h₁.1 p h))
    · exact List.mem_append.mpr (Or.inr (h₂.1 p h))
  · intro p hp
    rcases List.mem_append.mp hp with h | h
    · exact List.mem_append.mpr (Or.inl (h₁.2 p h))
    · exact List.mem_append.mpr (Or.inr (h₂.2 p h))

theorem dispatchName_wt (net : Network) (debug : Bool) (site nm : String)
    (tried : List (List Attempt)) (tr : Trace) (h : wellTagged tr) :
    wellTagged (dispatchName net debug site nm tried tr).2 := by
  rw [dispatchName_trace]
  by_cases hn : nm ≠ ""
  · rw [if_pos hn]
    exact wellTagged_app h (wellTagged_strat _ _ _)
  · rw [if_neg hn]
    exact h

theorem dispatchEan_wt (net : Network) (debug : Bool) (site e nm : String)
    (tried : List (List Attempt)) (tr : Trace) (h : wellTagged tr) :
    wellTagged (dispatchEan net debug site e nm tried tr).2 := by
  rw [dispatchEan_trace]
  by_cases hg : (e ≠ "" && validEan e) = true
  · rw [if_pos hg]
    dsimp only
    by_cases hr : (findByToken net site e (fun html => strContains html e)).result.isSome = true
    · rw [if_pos hr]
      exact wellTagged_app h (wellTagged_strat _ _ _)
    · rw [if_neg hr]
      exact dispatchName_wt _ _ _ _ _ _ (wellTagged_app h (wellTagged_strat _ _ _))
  · rw [if_neg hg]
    exact dispatchName_wt _ _ _ _ _ _ h

theorem dispatchSub_wt (net : Network) (debug : Bool) (site subcode e nm : String) :
    wellTagged (dispatchSub net debug site subcode e nm).2 := by
  rw [dispatchSub_trace]
  by_cases hsub : subcode ≠ ""
  · rw [if_pos hsub]
    dsimp only
    by_cases hr : (findByToken net site subcode
        (fun html => containsProductNumber html subcode)).result.isSome = true
    · rw [if_pos hr]
      exact wellTagged_strat _ _ _
    · rw [if_neg hr]
      exact dispatchEan_wt _ _ _ _ _ _ _ (wellTagged_strat _ _ _)
  · rw [if_neg hsub]
    exact dispatchEan_wt _ _ _ _ _ _ _ wellTagged_empty

theorem dispatch_wt (net : Network) (req : Request) : wellTagged (dispatch net req).2 := by
  unfold dispatch
  split
  · exact wellTagged_empty
  · exact dispatchSub_wt _ _ _ _ _ _

theorem dispatchName_invoked (net : Network) (debug : Bool) (site nm : String)
    (tried : List (List Attempt)) (tr : Trace) :
    (dispatchName net debug site nm tried tr).2.invoked =
      tr.invoked ++ (if nm ≠ "" then [Strat.byName] else []) := by
  rw [dispatchName_trace]
  by_cases hn : nm ≠ ""
  · rw [if_pos hn, if_pos hn]
    rfl
  · rw [if_neg hn, if_neg hn, List.append_nil]

theorem dispatchEan_invoked (net : Network) (debug : Bool) (site e nm : String)
    (tried : List (List Attempt)) (tr : Trace) :
    (dispatchEan net debug site e nm tried tr).2.invoked =
      tr.invoked ++
        (if (e ≠ "" && validEan e) = true then
          (if (findByToken net site e (fun html => strContains html e)).result.isSome = true
            then [Strat.ean]
            else Strat.ean :: (if nm ≠ "" then [Strat.byName] else []))
         else (if nm ≠ "" then [Strat.byName] else [])) := by
  rw [dispatchEan_trace]
  by_cases hg : (e ≠ "" && validEan e) = true
  · rw [if_pos hg, if_pos hg]
    dsimp only
    by_cases hr : (findByToken net site e (fun html => strContains html e)).result.isSome = true
    · rw [if_pos hr, if_pos hr]
      rfl
    · rw [if_neg hr, if_neg hr, dispatchName_invoked]
      show (tr.invoked ++ [Strat.ean]) ++ _ = _
      rw [List.append_assoc]
      rfl
  · rw [if_neg hg, if_neg hg, dispatchName_invoked]

theorem dispatchSub_invoked (net : Network) (debug : Bool) (site subcode e nm : String) :
    (dispatchSub net debug site subcode e nm).2.invoked =
      if subcode ≠ "" then
        (if (findByToken net site subcode
              (fun html => containsProductNumber html subcode)).result.isSome = true
          then [Strat.subcode]
          else Strat.subcode ::
            (if (e ≠ "" && validEan e) = true then
              (if (findByToken net site e
                    (fun html => strContains html e)).result.isSome = true
                then [Strat.ean]
                else Strat.ean :: (if nm ≠ "" then [Strat.byName] else []))
             else (if nm ≠ "" then [Strat.byName] else [])))
      else
        (if (e ≠ "" && validEan e) = true then
          (if (findByToken net site e
                (fun html => strContains html e)).result.isSome = true
            then [Strat.ean]
            else Strat.ean :: (if nm ≠ "" then [Strat.byName] else []))
         else (if nm ≠ "" then [Strat.byName] else [])) := by
  rw [dispatchSub_trace]
  by_cases hsub : subcode ≠ ""
  · rw [if_pos hsub, if_pos hsub]
    dsimp only
    by_cases hr : (findByToken net site subcode
        (fun html => containsProductNumber html subcode)).result.isSome = true
    · rw [if_pos hr, if_pos hr]
      rfl
    · rw [if_neg hr, if_neg hr, dispatchEan_invoked]
      rfl
  · rw [if_neg hsub, if_neg hsub, dispatchEan_invoked]
    rfl

theorem dispatch_invoked (net : Network) (req : Request) :
    (dispatch net req).2.invoked = upToFirst (succeeds net req) (applicables req) := by
  unfold dispatch
  split
  · next hcond =>
    obtain ⟨h1, h2, h3⟩ : reqSub req = "" ∧ reqEan req = "" ∧ reqName req = "" := by
      simpa [Bool.and_eq_true, and_assoc] using hcond
    simp [applicables, h1, h2, h3, upToFirst]
  · next hcond =>
    rw [dispatchSub_invoked]
    by_cases hsub : reqSub req ≠ ""
    · rw [if_pos hsub]
      by_cases hr : (findByToken net (reqSite req) (reqSub req)
          (fun html => containsProductNumber html (reqSub req))).result.isSome = true
      · rw [if_pos hr]
        have hsucc : succeeds net req Strat.subcode = true := hr
        simp [applicables, if_pos hsub, upToFirst, hsucc]
      · rw [if_neg hr]
        have hsucc : succeeds net req Strat.subcode = false := by
          cases hx : succeeds net req Strat.subcode
          · rfl
          · exact absurd hx hr
        by_cases hg : (reqEan req ≠ "" && validEan (reqEan req)) = true
        · rw [if_pos hg]
          have hgp : reqEan req ≠ "" ∧ validEan (reqEan req) = true := by simpa using hg
          by_cases hr2 : (findByToken net (reqSite req) (reqEan req)
              (fun html => strContains html (reqEan req))).result.isSome = true
          · rw [if_pos hr2]
            have hsucc2 : succeeds net req Strat.ean = true := hr2
            simp [applicables, if_pos hsub, if_pos hgp, upToFirst, hsucc, hsucc2]
          · rw [if_neg hr2]
            have hsucc2 : succeeds net req Strat.ean = false := by
              cases hx : succeeds net req Strat.ean
              · rfl
              · exact absurd hx hr2
            by_cases hn : reqName req ≠ ""
            · simp [applicables, if_pos hsub, if_pos hgp, if_pos hn, upToFirst, hsucc, hsucc2]
            · simp [applicables, if_pos hsub, if_pos hgp, if_neg hn, upToFirst, hsucc, hsucc2]
        · rw [if_neg hg]
          have hgp : ¬ (reqEan req ≠ "" ∧ validEan (reqEan req) = true) := by simpa using hg
          by_cases hn : reqName req ≠ ""
          · simp [applicables, if_pos hsub, if_neg hgp, if_pos hn, upToFirst, hsucc]
          · simp [applicables, if_pos hsub, if_neg hgp, if_neg hn, upToFirst, hsucc]
    · rw [if_neg hsub]
      by_cases hg : (reqEan req ≠ "" && validEan (reqEan req)) = true
      · rw [if_pos hg]
        have hgp : reqEan req ≠ "" ∧ validEan (reqEan req) = true := by simpa using hg
        by_cases hr2 : (findByToken net (reqSite req) (reqEan req)
            (fun html => strContains html (reqEan req))).result.isSome = true
        · rw [if_pos hr2]
          have hsucc2 : succeeds net req Strat.ean = true := hr2
          simp [applicables, if_neg hsub, if_pos hgp, upToFirst, hsucc2]
        · rw [if_neg hr2]
          have hsucc2 : succeeds net req Strat.ean = false := by
            cases hx : succeeds net req Strat.ean
            · rfl
            · exact absurd hx hr2
          by_cases hn : reqName req ≠ ""
          · simp [applicables, if_neg hsub, if_pos hgp, if_pos hn, upToFirst, hsucc2]
          · simp [applicables, if_neg hsub, if_pos hgp, if_neg hn, upToFirst, hsucc2]
      · rw [if_neg hg]
        have hgp : ¬ (reqEan req ≠ "" ∧ validEan (reqEan req) = true) := by simpa using hg
        by_cases hn : reqName req ≠ ""
        · simp [applicables, if_neg hsub, if_neg hgp, if_pos hn, upToFirst]
        · simp [applicables, if_neg hsub, if_neg hgp, if_neg hn, upToFirst]

theorem upToFirst_subset {p : Strat → Bool} :
    ∀ {l : List Strat} {s : Strat}, s ∈ upToFirst p l → s ∈ l := by
  intro l
  induction l with
  | nil =>
    intro s h
    exact absurd h (by simp [upToFirst])
  | cons a rest ih =>
    intro s h
    simp only [upToFirst] at h
    by_cases hp : p a = true
    · rw [if_pos hp] at h
      rw [List.mem_singleton.mp h]
      exact List.mem_cons_self a rest
    · rw [if_neg hp] at h
      rcases List.mem_cons.mp h with rfl | h'
      · exact List.mem_cons_self s rest
      · exact List.mem_cons_of_mem a (ih h')

theorem ean_not_applicable {req : Request} (h : validEan (reqEan req) = false) :
    Strat.ean ∉ applicables req := by
  intro hmem
  unfold applicables at hmem
  rcases List.mem_append.mp hmem with h1 | h1
  · rcases List.mem_append.mp h1 with h2 | h2
    · split at h2
      · exact absurd (List.mem_singleton.mp h2) (by simp)
      · exact absurd h2 (by simp)
    · split at h2
      · next hcond =>
        have hv : validEan (reqEan req) = true := (Bool.and_eq_true _ _ ▸ hcond).2
        rw [h] at hv
        exact absurd hv (by simp)
      · exact absurd h2 (by simp)
  · split at h1
    · exact absurd (List.mem_singleton.mp h1) (by simp)
    · exact absurd h1 (by simp)

theorem dispatch_ean_invalid_eq (net : Network) (req : Request)
    (h : validEan (reqEan req) = false) (h2 : reqSub req ≠ "" ∨ reqName req ≠ "") :
    dispatch net req = dispatch net (withoutEan req) := by
  have hc1 : ¬ (decide (reqSub req = "") && decide (reqEan req = "") &&
      decide (reqName req = "")) = true := by
    intro hc
    simp only [Bool.and_eq_true, decide_eq_true_eq] at hc
    rcases h2 with hh | hh
    · exact hh hc.1.1
    · exact hh hc.2
  have hc2 : ¬ (decide (reqSub (withoutEan req) = "") && decide (reqEan (withoutEan req) = "") &&
      decide (reqName (withoutEan req) = "")) = true := by
    intro hc
    simp only [Bool.and_eq_true, decide_eq_true_eq] at hc
    rcases h2 with hh | hh
    · exact hh hc.1.1
    · exact hh hc.2
  show (if _ then _ else _) = (if _ then _ else _)
  rw [if_neg hc1, if_neg hc2]
  show dispatchSub net req.debug (reqSite req) (reqSub req) (reqEan req) (reqName req) =
    dispatchSub net req.debug (reqSite req) (reqSub req) "" (reqName req)
  apply dispatchSub_ean_irrel
  · rw [h, Bool.and_false]
  · rfl

/-! ### Case-insensitivity lemmas for the subcode acceptance test -/

theorem lc_of_not_alpha {c : Char} (h : c.isAlpha = false) : lc c = c := by
  simp only [Char.isAlpha, Bool.or_eq_false_iff, Char.isUpper] at h
  obtain ⟨h1, _⟩ := h
  simp only [Bool.and_eq_false_iff] at h1
  simp only [lc, Char.toLower]
  split
  · next hcond =>
    exfalso
    obtain ⟨ha, hb⟩ := hcond
    have hn : c.toNat = c.val.toBitVec.toNat := rfl
    have e65 : ((65 : UInt32)).toBitVec.toNat = 65 := rfl
    have e90 : ((90 : UInt32)).toBitVec.toNat = 90 := rfl
    rcases h1 with h1 | h1 <;>
      simp only [decide_eq_false_iff_not, ge_iff_le, UInt32.le_def, BitVec.le_def,
        BitVec.lt_def, not_le] at h1 <;> omega
  · rfl

theorem eq_of_lc_not_alpha {x d : Char} (hd : d.isAlpha = false) (h : lc x = d) : x = d := by
  simp only [lc, Char.toLower] at h
  split at h
  · next hcond =>
    exfalso
    obtain ⟨ha, hb⟩ := hcond
    have hx : (Char.ofNat (x.toNat + 32)).toNat = x.toNat + 32 := by
      apply toNat_ofNat_valid
      have hxe : x.toNat = x.val.toBitVec.toNat := rfl
      have := x.val.toBitVec.isLt
      omega
    have hlow : d.isLower = true := by
      subst h
      simp only [Char.isLower, Bool.and_eq_true, decide_eq_true_eq, ge_iff_le,
        UInt32.le_def, BitVec.le_def]
      have e97 : ((97 : UInt32)).toBitVec.toNat = 97 := rfl
      have e122 : ((122 : UInt32)).toBitVec.toNat = 122 := rfl
      have hdn : (Char.ofNat (x.toNat + 32)).toNat =
        (Char.ofNat (x.toNat + 32)).val.toBitVec.toNat := rfl
      constructor
      · show (97 : UInt32).toBitVec.toNat ≤ _
        omega
      · show _ ≤ (122 : UInt32).toBitVec.toNat
        omega
    rw [Char.isAlpha, hlow, Bool.or_true] at hd
    exact absurd hd (by simp)
  · exact h

theorem lcList_id_of_not_alpha : ∀ {m : List Char},
    m.all (fun c => !c.isAlpha) = true → lcList m = m := by
  intro m
  induction m with
  | nil =>
    intro _
    rfl
  | cons c cs ih =>
    intro h
    rw [List.all_cons, Bool.and_eq_true] at h
    have hc : c.isAlpha = false := by
      have := h.1
      simp only [Bool.not_eq_eq_eq_not, Bool.not_true] at this
      exact this
    show lc c :: lcList cs = c :: cs
    rw [lc_of_not_alpha hc, ih h.2]

theorem map_lc_eq_not_alpha : ∀ {m₀ m : List Char}, m₀.map lc = m →
    m.all (fun c => !c.isAlpha) = true → m₀ = m := by
  intro m₀
  induction m₀ with
  | nil =>
    intro m h _
    exact h
  | cons c cs ih =>
    intro m h hall
    rw [List.map_cons] at h
    subst h
    rw [List.all_cons, Bool.and_eq_true] at hall
    have hc : (lc c).isAlpha = false := by
      have := hall.1
      simp only [Bool.not_eq_eq_eq_not, Bool.not_true] at this
      exact this
    rw [List.cons.injEq]
    exact ⟨eq_of_lc_not_alpha hc rfl, ih rfl hall.2⟩

theorem contains_ci_eq_of_not_alpha (html num : String)
    (h : num.data.all (fun c => !c.isAlpha) = true) :
    containsProductNumber html num = strContains html num := by
  unfold containsProductNumber containsCI strContains
  have h1 : lcList num.data = num.data := lcList_id_of_not_alpha h
  rw [h1, Bool.eq_iff_iff, within_iff, within_iff]
  constructor
  · intro hw
    obtain ⟨m₀, hm₀, hmap⟩ := map_within hw
    rw [← map_lc_eq_not_alpha hmap h]
    exact hm₀
  · intro hw
    have h2 := within_map (f := lc) hw
    rw [show num.data.map lc = num.data from h1] at h2
    exact h2

/-! ## The claims -/

/-- C1: for every oracle and request, the dispatcher invokes exactly the
applicable strategies in priority order (subcode, then EAN, then name) up
to and including the first one that produces a match — once an earlier
strategy succeeds no later strategy is invoked — and every candidate
fetch and search in the trace is attributable to an invoked strategy. -/
theorem C1_dispatch_first_success (net : Network) (req : Request) :
    (dispatch net req).2.invoked = upToFirst (succeeds net req) (applicables req) ∧
    (∀ s u, (s, u) ∈ (dispatch net req).2.fetched → s ∈ (dispatch net req).2.invoked) ∧
    (∀ s q, (s, q) ∈ (dispatch net req).2.searches → s ∈ (dispatch net req).2.invoked) := by
  refine ⟨dispatch_invoked net req, ?_, ?_⟩
  · intro s u hm
    exact (dispatch_wt net req).1 (s, u) hm
  · intro s q hm
    exact (dispatch_wt net req).2 (s, q) hm

/-- Witness for C1 at a concrete oracle and request: a fetch tagged with
the subcode strategy implies that strategy was invoked. -/
theorem C1_dispatch_first_success_witness :
    Strat.subcode ∈
      (dispatch netSub ⟨none, some "694062", none, some "sofa", false⟩).2.invoked :=
  (C1_dispatch_first_success netSub ⟨none, some "694062", none, some "sofa", false⟩).2.1
    Strat.subcode "https://bringo.ma/p/1" (by decide)

/-- C2: evaluation of the candidate source at the failing input.  The
claim states candidates are filtered to the requested site's domain; the
code filters on the literal `bringo.ma` regardless of the requested
site.  For a request with `site=example.com` whose search results link
to `https://example.com/p/1` (inside the requested domain) and
`https://bringo.ma/x` (outside it), the code drops the former and keeps
the latter. -/
theorem C2_candidate_filter_hardcoded :
    ddgLinksOfHtml twoAnchorHtml = ["https://bringo.ma/x"] ∧
    hostContains "https://example.com/p/1" "example.com" = true ∧
    hostContains "https://example.com/p/1" "bringo.ma" = false ∧
    hostContains "https://bringo.ma/x" "example.com" = false := by
  refine ⟨?_, ?_, ?_, ?_⟩ <;> decide

/-- C3 (counterexample): a protocol-relative image URL does not pass
through unchanged — `startsWith("/")` also matches `"//"`, so the
candidate page's origin is prepended to it. -/
theorem C3_protocol_relative_counterexample :
    startsList "//".data ("//cdn.example.com/x.jpg").data = true ∧
    resolveImage "https://bringo.ma/p/1" "//cdn.example.com/x.jpg" =
      some "https://bringo.ma//cdn.example.com/x.jpg" ∧
    resolveImage "https://bringo.ma/p/1" "//cdn.example.com/x.jpg" ≠
      some "//cdn.example.com/x.jpg" := by
  refine ⟨?_, ?_, ?_⟩ <;> decide

/-- C3 (amended): image URLs that do not start with `/` (absolute URLs)
pass through unchanged; every URL starting with `/` — root-relative or
protocol-relative — has the candidate page's origin prepended. -/
theorem C3_relative_resolution_amended (candidate imageUrl : String) (p : UrlParts)
    (hp : parseURL candidate = some p) :
    (startsList "/".data imageUrl.data = false →
      resolveImage candidate imageUrl = some imageUrl) ∧
    (startsList "/".data imageUrl.data = true →
      resolveImage candidate imageUrl = some (urlOrigin p ++ imageUrl)) := by
  constructor
  · intro h
    unfold resolveImage
    rw [if_neg (by simp [h])]
  · intro h
    unfold resolveImage
    rw [if_pos (by simp [h]), hp]
    rfl

/-- Witness for C3 (amended) at the spec's own example: candidate
`https://bringo.ma/p/123` and extracted `/img/x.jpg` resolve to
`https://bringo.ma/img/x.jpg`. -/
theorem C3_relative_resolution_amended_witness :
    resolveImage "https://bringo.ma/p/123" "/img/x.jpg" =
      some "https://bringo.ma/img/x.jpg" := by
  rw [(C3_relative_resolution_amended "https://bringo.ma/p/123" "/img/x.jpg"
    ⟨"https", "bringo.ma", "", "/p/123", ""⟩ (by decide)).2 (by decide)]
  decide

/-- C4 (counterexample): a candidate whose page fetch throws is fetched
but leaves no trace entry — the `tried.push` sits after both `await`s,
so the trace misses that attempted candidate. -/
theorem C4_trace_counterexample :
    (findByToken netNone "bringo.ma" "123456"
      (fun h => strContains h "123456")).fetched = ["https://bringo.ma/p/1"] ∧
    (findByToken netNone "bringo.ma" "123456"
      (fun h => strContains h "123456")).tried = [] := by
  constructor <;> decide

/-- C4 (amended): in both the token and the name strategies, a candidate
has a trace entry exactly when its page fetch completed with a body —
regardless of the HTTP status, the acceptance test, or the image
extraction outcome; candidates whose fetch threw appear in no trace. -/
theorem C4_trace_amended (net : Network) (site token rawName : String)
    (accept : String → Bool) :
    (∀ u, u ∈ (findByToken net site token accept).tried.map Attempt.cand ↔
      (u ∈ (findByToken net site token accept).fetched ∧ (net.page u).isSome = true)) ∧
    (∀ u, u ∈ (findByName net site rawName).tried.map Attempt.cand ↔
      (u ∈ (findByName net site rawName).fetched ∧ (net.page u).isSome = true)) :=
  ⟨fun u => tokenLoop_trace net accept (ddgLinks net (searchQuery site token)) u,
   fun u => nameLoop_trace net (tokens (cleanName rawName))
     (ddgLinks net (searchQuery site (cleanName rawName))) u⟩

/-- Witness for C4 (amended): with an oracle whose fetches complete, the
fetched candidate appears in the trace. -/
theorem C4_trace_amended_witness :
    "https://bringo.ma/p/1" ∈
      (findByToken netSub "bringo.ma" "694062"
        (fun h => containsProductNumber h "694062")).tried.map Attempt.cand :=
  ((C4_trace_amended netSub "bringo.ma" "694062" "x"
    (fun h => containsProductNumber h "694062")).1 "https://bringo.ma/p/1").mpr
    (by constructor <;> decide)

/-- C5: a request whose (trimmed) `ean` parameter fails the
`^\d{12,14}$` format check never invokes the EAN strategy — no EAN
search is issued and no candidate fetch is attributable to it — and when
another identifier is present the whole dispatch behaves exactly as if
the `ean` parameter were absent (it falls through without an error). -/
theorem C5_invalid_ean_skipped (net : Network) (req : Request)
    (h : validEan (reqEan req) = false) :
    Strat.ean ∉ (dispatch net req).2.invoked ∧
    (∀ u, (Strat.ean, u) ∉ (dispatch net req).2.fetched) ∧
    (∀ q, (Strat.ean, q) ∉ (dispatch net req).2.searches) ∧
    ((reqSub req ≠ "" ∨ reqName req ≠ "") →
      dispatch net req = dispatch net (withoutEan req)) := by
  have hni : Strat.ean ∉ (dispatch net req).2.invoked := by
    rw [dispatch_invoked]
    intro hmem
    exact ean_not_applicable h (upToFirst_subset hmem)
  refine ⟨hni, ?_, ?_, dispatch_ean_invalid_eq net req h⟩
  · intro u hm
    exact hni ((dispatch_wt net req).1 (Strat.ean, u) hm)
  · intro q hm
    exact hni ((dispatch_wt net req).2 (Strat.ean, q) hm)

/-- Witness for C5 at a concrete malformed EAN (`"12"`). -/
theorem C5_invalid_ean_skipped_witness :
    Strat.ean ∉ (dispatch netNone ⟨none, none, some "12", some "sofa", false⟩).2.invoked ∧
    dispatch netNone ⟨none, none, some "12", some "sofa", false⟩ =
      dispatch netNone (withoutEan ⟨none, none, some "12", some "sofa", false⟩) :=
  ⟨(C5_invalid_ean_skipped netNone ⟨none, none, some "12", some "sofa", false⟩ (by decide)).1,
   (C5_invalid_ean_skipped netNone ⟨none, none, some "12", some "sofa", false⟩
     (by decide)).2.2.2 (Or.inr (by decide))⟩

/-- C6: a request with `subcode`, `ean` and `name` all absent yields
status 400 with the error body, and no strategy is invoked, no page is
fetched, and no search is issued. -/
theorem C6_missing_identifiers_400 (net : Network) (site : Option String) (debug : Bool) :
    dispatch net ⟨site, none, none, none, debug⟩ =
      (⟨400, .err "Provide subcode, ean or name."⟩, ⟨[], [], []⟩) := rfl

/-- C7: the name strategy returns exactly the first candidate, in search
ranking order, whose title similarity against the cleaned query reaches
0.6 and whose page yields an extractable image; the reported score is
that candidate's title score and its value is at least 3/5.  An earlier
qualifying candidate therefore always wins over any later one, whatever
the later one's score. -/
theorem C7_name_threshold_first_hit (net : Network) (site rawName : String) :
    ((findByName net site rawName).result.map (fun p => p.productUrl) =
      (ddgLinks net (searchQuery site (cleanName rawName))).find?
        (qualB net (tokens (cleanName rawName)))) ∧
    (∀ p, (findByName net site rawName).result = some p →
      3 / 5 ≤ scoreVal p.score ∧
      ∃ ok html, net.page p.productUrl = some (ok, html) ∧
        p.score = simScore (tokens (cleanName rawName)) (tokens (extractTitle html)) ∧
        extractImage p.productUrl html = some p.imageUrl) := by
  have h := nameLoop_spec net (tokens (cleanName rawName))
    (ddgLinks net (searchQuery site (cleanName rawName)))
  refine ⟨h.1, ?_⟩
  intro p hp
  obtain ⟨ok, html, h1, h2, h3, h4⟩ := h.2 p hp
  refine ⟨?_, ok, html, h1, h2, h4⟩
  rw [h2]
  exact (simAccept_iff _ _).mp h3

/-- Witness for C7 at a concrete oracle where the single candidate
titles `sofa` against the query `sofa`. -/
theorem C7_name_threshold_first_hit_witness :
    (findByName netName "bringo.ma" "sofa").result.map (fun p => p.productUrl) =
      some "https://bringo.ma/p/1" ∧
    3 / 5 ≤ scoreVal ((1 : ℕ), (1 : ℕ)) := by
  constructor
  · rw [(C7_name_threshold_first_hit netName "bringo.ma" "sofa").1]
    decide
  · exact ((C7_name_threshold_first_hit netName "bringo.ma" "sofa").2
      ⟨"https://img.bringo.ma/x.jpg", "https://bringo.ma/p/1", (1, 1)⟩ (by decide)).1

/-- C8: the similarity score always lies in `[0, 1]`; it is `0` whenever
either token set is empty or the sets are disjoint — in particular
`similarity [] []` is defined (the denominator is floored at 1, so there
is no division error) and equals 0 — and two identical single-token
sets score exactly 1. -/
theorem C8_similarity_bounds :
    (∀ a b : List String, 0 ≤ similarity a b ∧ similarity a b ≤ 1) ∧
    (∀ a b : List String,
      (a.toFinset = ∅ ∨ b.toFinset = ∅ ∨ a.toFinset ∩ b.toFinset = ∅) →
        similarity a b = 0) ∧
    similarity [] [] = 0 ∧
    (∀ t : String, similarity [t] [t] = 1) := by
  refine ⟨fun a b => ⟨similarity_nonneg a b, similarity_le_one a b⟩, similarity_zero_of,
    ?_, similarity_single⟩
  exact similarity_zero_of [] [] (Or.inl (by simp))

/-- Witness for C8 at concrete token lists. -/
theorem C8_similarity_bounds_witness :
    similarity ["x"] [] = 0 ∧ similarity ["x"] ["x"] = 1 :=
  ⟨C8_similarity_bounds.2.1 ["x"] [] (Or.inr (Or.inl (by simp))),
   C8_similarity_bounds.2.2.2 "x"⟩

/-- C9 (counterexample): the claim that the output of `cleanName` never
contains six consecutive digits fails — `\b\d{6,}\b` needs word
boundaries, so a long digit run glued to a letter survives cleaning. -/
theorem C9_digit_run_counterexample :
    hasSixB (cleanName "a1234567").data = true := by decide

/-- C9 (amended): for inputs in which every maximal word-character run
containing six consecutive digits consists of digits only (the run
touches no letter or underscore, i.e. it is delimited by word
boundaries), the output of `cleanName` contains no six-digit run; and
the output always consists of letters, digits and spaces only
(SKU tokens, parentheticals and other punctuation having been
removed). -/
theorem C9_digit_run_amended (s : String) (hg : digitGuarded s.data = true) :
    hasSixB (cleanName s).data = false ∧
    ∀ c ∈ (cleanName s).data, c.isAlpha = true ∨ c.isDigit = true ∨ c = ' ' :=
  ⟨cleanNameL_noSix hg, cleanName_chars s⟩

/-- Witness for C9 (amended) on a name with an SKU token, a
boundary-delimited barcode, a parenthetical and punctuation. -/
theorem C9_digit_run_amended_witness :
    digitGuarded ("Sofa GD1234 123456 (promo) x2!").data = true ∧
    hasSixB (cleanName "Sofa GD1234 123456 (promo) x2!").data = false :=
  ⟨by decide, (C9_digit_run_amended "Sofa GD1234 123456 (promo) x2!" (by decide)).1⟩

/-- C10 (counterexample): subcode acceptance is not extensionally equal
to the EAN strategy's plain substring containment — the subcode regex
carries the `i` flag, so it matches case-insensitively where
`String.includes` does not. -/
theorem C10_subcode_ean_equiv_counterexample :
    containsProductNumber "abc" "ABC" = true ∧ strContains "abc" "ABC" = false := by
  constructor <;> decide

/-- C10 (amended): subcode acceptance is case-insensitive substring
occurrence, so it coincides with the EAN strategy's substring
containment exactly on subcodes without letters — in particular on the
numeric subcodes the worker is designed for. -/
theorem C10_subcode_ean_equiv_amended (html num : String)
    (h : num.data.all (fun c => !c.isAlpha) = true) :
    containsProductNumber html num = strContains html num :=
  contains_ci_eq_of_not_alpha html num h

/-- Witness for C10 (amended) on an all-digit subcode. -/
theorem C10_subcode_ean_equiv_amended_witness :
    containsProductNumber "Numero du produit: 694062" "694062" =
      strContains "Numero du produit: 694062" "694062" ∧
    strContains "Numero du produit: 694062" "694062" = true :=
  ⟨C10_subcode_ean_equiv_amended "Numero du produit: 694062" "694062" (by decide),
   by decide⟩

end Stockify
